/-
Verification of the booklice title-inference engine against its design
specification.

The engine (package main, title.go) extracts a best-guess title from the
positioned glyph runs of a PDF first page.  Go strings are modelled as
lists of bytes (`List Nat`, each < 256), runes (code points) as `Nat`,
and `float64` fields (font sizes, coordinates) as `ℚ`.  All comparisons
the code performs on these floats (`<`, `>=`, equality via cmp.Compare)
are modelled exactly on ℚ; for the constants involved (0.16, 0.20, 4.0)
a comment at each use site records why the exact-rational model agrees
with the float64 computation on all inputs relevant to the claims.

External library functions the code calls (utf8.DecodeRuneInString,
unicode.IsSpace, strings.Fields/Join/ToLower/Index, the regexp
[[:alpha:]]{3,30}, and slices.SortFunc) are embedded faithfully from
their documented, deterministic behaviour; unicode.IsGraphic and the
stemmer library are kept abstract as parameters, since no claim depends
on which characters are graphic or on the stemmed form of a word.
-/
import Mathlib

/-! ### Go unicode/utf8: DecodeRuneInString

Go's decoder consumes 1..4 bytes per step.  The first-byte table `first`
and `acceptRanges` of unicode/utf8 are encoded as the branch structure
below: ASCII bytes decode to themselves (size 1); bytes 0x80..0xC1 are
invalid (RuneError, size 1); 2-byte leads are 0xC2..0xDF with
continuation 0x80..0xBF; 3-byte leads 0xE0..0xEF where 0xE0 requires the
second byte in 0xA0..0xBF and 0xED requires 0x80..0x9F (excluding
overlong forms and surrogates); 4-byte leads 0xF0..0xF4 where 0xF0
requires 0x90..0xBF and 0xF4 requires 0x80..0x8F; 0xF5.. is invalid.  A
sequence shorter than its header demands yields (RuneError, 1), as does
a bad continuation byte. -/

def runeError : Nat := 0xFFFD

def decodeRune : List Nat → Nat × Nat
  | [] => (runeError, 0)
  | b0 :: rest =>
    if b0 < 0x80 then (b0, 1)
    else if b0 < 0xC2 then (runeError, 1)
    else if b0 < 0xE0 then
      match rest with
      | b1 :: _ =>
        if 0x80 ≤ b1 ∧ b1 ≤ 0xBF then ((b0 - 0xC0) * 64 + (b1 - 0x80), 2)
        else (runeError, 1)
      | [] => (runeError, 1)
    else if b0 < 0xF0 then
      match rest with
      | b1 :: b2 :: _ =>
        if (if b0 = 0xE0 then 0xA0 else 0x80) ≤ b1 ∧ b1 ≤ (if b0 = 0xED then 0x9F else 0xBF) then
          if 0x80 ≤ b2 ∧ b2 ≤ 0xBF then
            ((b0 - 0xE0) * 4096 + (b1 - 0x80) * 64 + (b2 - 0x80), 3)
          else (runeError, 1)
        else (runeError, 1)
      | _ => (runeError, 1)
    else if b0 < 0xF5 then
      match rest with
      | b1 :: b2 :: b3 :: _ =>
        if (if b0 = 0xF0 then 0x90 else 0x80) ≤ b1 ∧ b1 ≤ (if b0 = 0xF4 then 0x8F else 0xBF) then
          if 0x80 ≤ b2 ∧ b2 ≤ 0xBF then
            if 0x80 ≤ b3 ∧ b3 ≤ 0xBF then
              ((b0 - 0xF0) * 262144 + (b1 - 0x80) * 4096 + (b2 - 0x80) * 64 + (b3 - 0x80), 4)
            else (runeError, 1)
          else (runeError, 1)
        else (runeError, 1)
      | _ => (runeError, 1)
    else (runeError, 1)

/-- Go utf8.AppendRune: encode a rune back to UTF-8 bytes; surrogates and
out-of-range values encode as RuneError (EF BF BD). -/
def encodeRune (r : Nat) : List Nat :=
  if r ≤ 0x7F then [r]
  else if r ≤ 0x7FF then [0xC0 + r / 64, 0x80 + r % 64]
  else if 0x10FFFF < r ∨ (0xD800 ≤ r ∧ r ≤ 0xDFFF) then [0xEF, 0xBF, 0xBD]
  else if r ≤ 0xFFFF then [0xE0 + r / 4096, 0x80 + r / 64 % 64, 0x80 + r % 64]
  else [0xF0 + r / 262144, 0x80 + r / 4096 % 64, 0x80 + r / 64 % 64, 0x80 + r % 64]

/-- On a non-empty byte string the decoder always consumes at least one
byte: every branch of `decodeRune` on a cons cell yields size 1, 2, 3 or 4.
This is the forward-progress guarantee the Sanitizer loop relies on. -/
theorem decodeRune_size_pos (b0 : Nat) (rest : List Nat) :
    1 ≤ (decodeRune (b0 :: rest)).2 := by
  unfold decodeRune
  repeat' split
  all_goals simp_all

theorem decodeRune_size_le (b0 : Nat) (rest : List Nat) :
    (decodeRune (b0 :: rest)).2 ≤ 4 := by
  unfold decodeRune
  repeat' split
  all_goals simp_all

/-- Go unicode.IsSpace: the White_Space property.  Latin-1 part: TAB, LF,
VT, FF, CR, SPACE, NEL (U+0085), NBSP (U+00A0); beyond Latin-1 the
unicode.White_Space range table. -/
def isSpaceRune (r : Nat) : Bool :=
  decide ((9 ≤ r ∧ r ≤ 13) ∨ r = 32 ∨ r = 0x85 ∨ r = 0xA0 ∨
    r = 0x1680 ∨ (0x2000 ≤ r ∧ r ≤ 0x200A) ∨ r = 0x2028 ∨ r = 0x2029 ∨
    r = 0x202F ∨ r = 0x205F ∨ r = 0x3000)

/-! The decode loops below recurse on `s.drop size` with size ≥ 1, which
is not structural; each is therefore driven by a fuel counter that starts
at `s.length`.  The invariant `s.length ≤ fuel` holds throughout (every
step drops at least one byte and one unit of fuel), so the fuel-0 case is
reached only with `s = []` and the fueled function is extensionally the
Go loop. -/

def decodeStepCountF : Nat → List Nat → Nat
  | 0, _ => 0
  | _, [] => 0
  | fuel + 1, b0 :: rest =>
    1 + decodeStepCountF fuel ((b0 :: rest).drop (decodeRune (b0 :: rest)).2)

/-- Counts the decode steps `printable`'s loop takes over a byte string. -/
def decodeStepCount (s : List Nat) : Nat := decodeStepCountF s.length s

def printableRunesF (isG : Nat → Bool) : Nat → List Nat → List Nat
  | 0, _ => []
  | _, [] => []
  | fuel + 1, b0 :: rest =>
    (if (decodeRune (b0 :: rest)).1 = runeError then 32
     else if isG (decodeRune (b0 :: rest)).1 then (decodeRune (b0 :: rest)).1 else 32) ::
      printableRunesF isG fuel ((b0 :: rest).drop (decodeRune (b0 :: rest)).2)

/-- The rune list `printable` accumulates (title.go:223-242): one rune per
decode step; RuneError and non-graphic runes are replaced by a space
(rune 32), graphic runes pass through.  `unicode.IsGraphic` is the
abstract parameter `isG`. -/
def printableRunes (isG : Nat → Bool) (s : List Nat) : List Nat :=
  printableRunesF isG s.length s

/-- Go `string(runes)`: concatenation of the UTF-8 encodings. -/
def encodeRunes : List Nat → List Nat
  | [] => []
  | r :: rs => encodeRune r ++ encodeRunes rs

/-- title.go:223-242 `printable`: replace all non-printable characters of
s by a space. -/
def printable (isG : Nat → Bool) (s : List Nat) : List Nat :=
  encodeRunes (printableRunes isG s)

/-! ### Go strings.Fields / strings.Join and phrase.String (title.go:196-202)

strings.Fields splits a string around maximal runs of white-space runes
(unicode.IsSpace), decoding rune by rune and slicing the original bytes,
so invalid bytes inside a field are preserved verbatim.  `fieldsGo`
carries the bytes of the field currently being accumulated. -/

def fieldsGoF : Nat → List Nat → List Nat → List (List Nat)
  | 0, _, curr => if curr = [] then [] else [curr]
  | _, [], curr => if curr = [] then [] else [curr]
  | fuel + 1, b0 :: rest, curr =>
    if isSpaceRune (decodeRune (b0 :: rest)).1 then
      (if curr = [] then [] else [curr]) ++
        fieldsGoF fuel ((b0 :: rest).drop (decodeRune (b0 :: rest)).2) []
    else
      fieldsGoF fuel ((b0 :: rest).drop (decodeRune (b0 :: rest)).2)
        (curr ++ (b0 :: rest).take (decodeRune (b0 :: rest)).2)

def fieldsGo (s : List Nat) (curr : List Nat) : List (List Nat) :=
  fieldsGoF s.length s curr

def fields (s : List Nat) : List (List Nat) := fieldsGo s []

/-- strings.Join(fields, " "): single space byte between fields. -/
def joinSp : List (List Nat) → List Nat
  | [] => []
  | [f] => f
  | f :: g :: fs => f ++ 32 :: joinSp (g :: fs)

/-- title.go:197-202 `(p *phrase) String`: join the whitespace-separated
fields of the accumulated text with single spaces, then slice the first
min(80, len(s)) BYTES (`s[0:min(80, len(s))]` is Go byte slicing). -/
def renderJoined (b : List Nat) : List Nat := joinSp (fields b)

/-! ### Go regexp [[:alpha:]]{3,30} and dictCheck (title.go:204-219)

POSIX [[:alpha:]] in Go regexp is the ASCII class [A-Za-z].  FindAllString
returns the leftmost-first greedy non-overlapping matches: each maximal
ASCII-alphabetic run is chopped left to right into pieces of up to 30
bytes and pieces shorter than 3 bytes are discarded. -/

def isAlphaByte (b : Nat) : Bool :=
  decide ((65 ≤ b ∧ b ≤ 90) ∨ (97 ≤ b ∧ b ≤ 122))

def tokensGoF : Nat → List Nat → List (List Nat)
  | 0, _ => []
  | _, [] => []
  | fuel + 1, b :: rest =>
    if isAlphaByte b then
      if 3 ≤ ((b :: rest).takeWhile isAlphaByte).length then
        ((b :: rest).takeWhile isAlphaByte).take 30 ::
          tokensGoF fuel
            ((b :: rest).drop (min 30 ((b :: rest).takeWhile isAlphaByte).length))
      else
        -- no match can start at this position (the whole alphabetic run
        -- here is shorter than 3); the regexp engine advances one position
        tokensGoF fuel rest
    else
      tokensGoF fuel rest

def tokensGo (s : List Nat) : List (List Nat) := tokensGoF s.length s

/-- strings.ToLower, byte-wise on ASCII letters.  The full function maps
runes, but `dictCheck` only applies it to all-ASCII tokens, where the two
agree. -/
def toLowerByte (b : Nat) : Nat := if 65 ≤ b ∧ b ≤ 90 then b + 32 else b

def toLowerGo (w : List Nat) : List Nat := w.map toLowerByte

/-- Number of tokens of s that hit the dictionary: the lowercased token or
its lowercased stemmed form is in the word set (title.go:208-216).  The
dictionary (the embedded NetBSD word list, not part of src/) and the
external stemmer library are abstract parameters. -/
def dictHits (words : List Nat → Bool) (stem : List Nat → List Nat) (s : List Nat) : Nat :=
  ((tokensGo s).filter
    (fun w => words (toLowerGo w) || words (toLowerGo (stem w)))).length

/-- title.go:205-219 `dictCheck`: s has enough dictionary words.  The Go
comparison `float64(tlwordsInDict)/float64(tlwords) >= 0.20` is modelled
as the exact rational comparison hits/total ≥ 1/5: for all token counts
below 8·10^15 (far above any count reachable from an at most 80-byte
candidate) the correctly rounded float64 division compares to the double
nearest 0.20 exactly as the rational ratio compares to 1/5. -/
def dictCheck (words : List Nat → Bool) (stem : List Nat → List Nat) (s : List Nat) : Bool :=
  let tlwords := (tokensGo s).length
  let tlwordsInDict := dictHits words stem s
  decide (0 < tlwords ∧ (tlwordsInDict : ℚ) / (tlwords : ℚ) ≥ 1/5)

/-! ### Data model: pdf.Text runs and phrases (title.go:143-194) -/

/-- rsc.io/pdf Text: one positioned glyph run of the first page. -/
structure TextRun where
  font : List Nat
  fontSize : ℚ
  x : ℚ
  y : ℚ
  w : ℚ
  s : List Nat
deriving DecidableEq, Repr, Inhabited

/-- title.go:145-153 `phrase`: font data of the seed run, the spacing
threshold, the previous run's end position, the byte count tally and the
accumulated text (strings.Builder contents). -/
structure phrase where
  font : List Nat
  fontSize : ℚ
  spacing : ℚ
  prevx : ℚ
  prevy : ℚ
  length : Nat
  b : List Nat
deriving DecidableEq, Repr, Inhabited

/-- title.go:23 spacingCoefficient = 0.16.  The float64 literal 0.16 is
not exactly 16/100; the spacing comparison is modelled with the exact
rational, which determines the same branch whenever the compared
quantities are not denormally close to the threshold (claim C6 is about
which branch runs given the comparison's outcome, not about float
rounding). -/
def spacingCoefficient : ℚ := 16/100

/-- title.go:156-167 `newPhrase`: a phrase seeded from run t. -/
def newPhrase (isG : Nat → Bool) (t : TextRun) : phrase :=
  { font := t.font
    fontSize := t.fontSize
    spacing := spacingCoefficient * t.fontSize
    b := printable isG t.s
    length := t.s.length
    prevx := t.x + t.w
    prevy := t.y }

/-- title.go:170-194 `tryAppend`: `some` of the grown phrase when the run
is absorbed, `none` when rejected (Go mutates in place and returns bool).
The acceptance test keeps the source's shape: fontFits is the constant
true (font names deliberately ignored), fontSizeFits is
|t.FontSize - p.fontSize| < 4.0. -/
def tryAppend (isG : Nat → Bool) (p : phrase) (t : TextRun) : Option phrase :=
  let fontFits : Bool := true
  let fontSizeFits : Bool := decide (|t.fontSize - p.fontSize| < 4)
  if fontSizeFits && fontFits then
    some (if 0 < p.length ∧ (t.y < p.prevy ∨ t.x - p.prevx ≥ p.spacing) then
      { p with
        b := (p.b ++ [32]) ++ printable isG t.s
        length := (p.length + 1) + t.s.length
        prevx := t.x + t.w
        prevy := t.y }
    else
      { p with
        b := p.b ++ printable isG t.s
        length := p.length + t.s.length
        prevx := t.x + t.w
        prevy := t.y })
  else none

/-- title.go:96-107: the phrase-building loop over the first page's text
runs, with `curr` the currently open phrase. -/
def phrasesLoop (isG : Nat → Bool) (curr : phrase) : List TextRun → List phrase
  | [] => [curr]
  | t :: ts =>
    match tryAppend isG curr t with
    | some p => phrasesLoop isG p ts
    | none => curr :: phrasesLoop isG (newPhrase isG t) ts

/-- The phrases built from the runs of the first page (title.go:96-111;
for zero runs currPhrase stays nil and no phrase is appended). -/
def phrasesOfRuns (isG : Nat → Bool) : List TextRun → List phrase
  | [] => []
  | t :: ts => phrasesLoop isG (newPhrase isG t) ts

/-- The same loop instrumented with the list of runs each phrase absorbed
(seed run included); used to state the PhraseBuilder invariant. -/
def phrasesLoopR (isG : Nat → Bool) (curr : phrase × List TextRun) :
    List TextRun → List (phrase × List TextRun)
  | [] => [curr]
  | t :: ts =>
    match tryAppend isG curr.1 t with
    | some p => phrasesLoopR isG (p, curr.2 ++ [t]) ts
    | none => curr :: phrasesLoopR isG (newPhrase isG t, [t]) ts

def phrasesWithRuns (isG : Nat → Bool) : List TextRun → List (phrase × List TextRun)
  | [] => []
  | t :: ts => phrasesLoopR isG (newPhrase isG t, [t]) ts

/-! ### Go slices.SortFunc: pattern-defeating quicksort

titleFromPhrases (title.go:121-123) sorts the phrase slice with
slices.SortFunc.  That function (Go standard library,
src/slices/zsortanyfunc.go, unchanged Go 1.21-1.24) is deterministic, so
it is embedded here verbatim over lists: `swapE l i j` is the slice
element swap `data[i], data[j] = data[j], data[i]`, Go int indices are
Nat (the algorithm keeps them non-negative), and the inner scanning
loops carry `j1 = j + 1` so that the int comparison `i <= j` becomes
`i < j1` without Nat truncation at zero.  `limit` is Int exactly as in
Go. -/

def getE {α : Type} [Inhabited α] (l : List α) (i : Nat) : α := l.getD i default

def swapE {α : Type} [Inhabited α] (l : List α) (i j : Nat) : List α :=
  (l.set i (getE l j)).set j (getE l i)

/-- insertionSortCmpFunc inner loop: bubble element j left while strictly
smaller than its left neighbour (`for j := i; j > a && cmp(data[j],
data[j-1]) < 0; j--`); structural recursion on j, the j = 0 case being the
failed `j > a` guard. -/
def insertInner {α : Type} [Inhabited α] (cmpf : α → α → Int) : List α → Nat → Nat → List α
  | l, 0, _ => l
  | l, j + 1, a =>
    if a < j + 1 ∧ cmpf (getE l (j + 1)) (getE l j) < 0 then
      insertInner cmpf (swapE l (j + 1) j) j a
    else l

/-- insertionSortCmpFunc outer loop (`for i := a+1; i < b; i++`), driven by
a fuel counter that starts at b - i and equals b - i at every step: fuel 0
means i ≥ b, where the loop exits in both presentations. -/
def insertLoopF {α : Type} [Inhabited α] (cmpf : α → α → Int) :
    Nat → List α → Nat → Nat → Nat → List α
  | 0, l, _, _, _ => l
  | fuel + 1, l, a, i, b =>
    if i < b then insertLoopF cmpf fuel (insertInner cmpf l i a) a (i + 1) b else l

/-- insertionSortCmpFunc: sorts data[a:b]. -/
def insertionSort {α : Type} [Inhabited α] (cmpf : α → α → Int) (l : List α) (a b : Nat) :
    List α :=
  insertLoopF cmpf (b - (a + 1)) l a (a + 1) b

/-- siftDownCmpFunc's child choice: right child when present and larger. -/
def heapChild {α : Type} [Inhabited α] (cmpf : α → α → Int) (l : List α)
    (root hi first : Nat) : Nat :=
  if 2 * root + 2 < hi ∧
      cmpf (getE l (first + (2 * root + 1))) (getE l (first + (2 * root + 2))) < 0 then
    2 * root + 2
  else 2 * root + 1

theorem heapChild_gt {α : Type} [Inhabited α] (cmpf : α → α → Int) (l : List α)
    (root hi first : Nat) : root < heapChild cmpf l root hi first := by
  unfold heapChild
  split <;> omega

/-- siftDownCmpFunc: sift the root down the max-heap data[first:first+hi].
The fuel starts at hi - root and dominates hi - root at every step (the
child index is at least root + 1), so fuel 0 implies root ≥ hi, where the
`child >= hi` break fires in the Go loop as well. -/
def siftDownF {α : Type} [Inhabited α] (cmpf : α → α → Int) :
    Nat → List α → Nat → Nat → Nat → List α
  | 0, l, _, _, _ => l
  | fuel + 1, l, root, hi, first =>
    if 2 * root + 1 < hi then
      if cmpf (getE l (first + root)) (getE l (first + heapChild cmpf l root hi first)) < 0 then
        siftDownF cmpf fuel (swapE l (first + root) (first + heapChild cmpf l root hi first))
          (heapChild cmpf l root hi first) hi first
      else l
    else l

def siftDown {α : Type} [Inhabited α] (cmpf : α → α → Int) (l : List α)
    (root hi first : Nat) : List α :=
  siftDownF cmpf (hi - root) l root hi first

/-- heapSortCmpFunc first loop (`for i := (hi-1)/2; i >= 0; i--`), with the
counter shifted by one so it lands on Nat. -/
def heapify {α : Type} [Inhabited α] (cmpf : α → α → Int) (l : List α) (hi first : Nat) :
    Nat → List α
  | 0 => l
  | i + 1 => heapify cmpf (siftDown cmpf l i hi first) hi first i

/-- heapSortCmpFunc second loop (`for i := hi-1; i >= 0; i--`). -/
def heapPop {α : Type} [Inhabited α] (cmpf : α → α → Int) (l : List α) (first : Nat) :
    Nat → List α
  | 0 => l
  | i + 1 => heapPop cmpf (siftDown cmpf (swapE l first (first + i)) 0 i first) first i

def heapSort {α : Type} [Inhabited α] (cmpf : α → α → Int) (l : List α) (a b : Nat) :
    List α :=
  heapPop cmpf (heapify cmpf l (b - a) a ((b - a - 1) / 2 + 1)) a (b - a)

/-- reverseRangeCmpFunc (`i, j := a, b-1; for i < j { swap; i++; j-- }`);
structural recursion on j. -/
def revRange {α : Type} [Inhabited α] : List α → Nat → Nat → List α
  | l, _, 0 => l
  | l, i, j + 1 => if i < j + 1 then revRange (swapE l i (j + 1)) (i + 1) j else l

def reverseRange {α : Type} [Inhabited α] (l : List α) (a b : Nat) : List α :=
  revRange l a (b - 1)

/-- order2CmpFunc: index pair ordered by the pointed-to elements, with the
swap counter threaded through. -/
def order2 {α : Type} [Inhabited α] (cmpf : α → α → Int) (l : List α) (a b swaps : Nat) :
    Nat × Nat × Nat :=
  if cmpf (getE l b) (getE l a) < 0 then (b, a, swaps + 1) else (a, b, swaps)

/-- medianCmpFunc: index of the median of three elements
(`a, b = order2(a,b); b, c = order2(b,c); a, b = order2(a,b); return b`):
the returned pair is the (b, swaps) component of the third order2. -/
def medianIdx {α : Type} [Inhabited α] (cmpf : α → α → Int) (l : List α)
    (a b c swaps : Nat) : Nat × Nat :=
  (order2 cmpf l
    (order2 cmpf l a b swaps).1
    (order2 cmpf l (order2 cmpf l a b swaps).2.1 c (order2 cmpf l a b swaps).2.2).1
    (order2 cmpf l (order2 cmpf l a b swaps).2.1 c (order2 cmpf l a b swaps).2.2).2.2).2

/-- medianAdjacentCmpFunc. -/
def medianAdjacent {α : Type} [Inhabited α] (cmpf : α → α → Int) (l : List α)
    (a swaps : Nat) : Nat × Nat :=
  medianIdx cmpf l (a - 1) a (a + 1) swaps

inductive SortHint where
  | increasing
  | decreasing
  | unknown
deriving DecidableEq, Repr

/-- The swaps-count-to-hint translation at the end of choosePivotCmpFunc:
zero swaps mean an increasing hint, maxSwaps = 12 a decreasing one. -/
def pivotHintOf (p : Nat × Nat) : Nat × SortHint :=
  if p.2 = 0 then (p.1, SortHint.increasing)
  else if p.2 = 12 then (p.1, SortHint.decreasing)
  else (p.1, SortHint.unknown)

/-- The Tukey ninther of choosePivotCmpFunc (length ≥ 50): medianAdjacent
at the three quartile indices, then the median of the three, the swap
counter threaded through all four calls. -/
def ninther {α : Type} [Inhabited α] (cmpf : α → α → Int) (l : List α) (a b : Nat) :
    Nat × Nat :=
  medianIdx cmpf l
    (medianAdjacent cmpf l (a + (b - a) / 4 * 1) 0).1
    (medianAdjacent cmpf l (a + (b - a) / 4 * 2)
      (medianAdjacent cmpf l (a + (b - a) / 4 * 1) 0).2).1
    (medianAdjacent cmpf l (a + (b - a) / 4 * 3)
      (medianAdjacent cmpf l (a + (b - a) / 4 * 2)
        (medianAdjacent cmpf l (a + (b - a) / 4 * 1) 0).2).2).1
    (medianAdjacent cmpf l (a + (b - a) / 4 * 3)
      (medianAdjacent cmpf l (a + (b - a) / 4 * 2)
        (medianAdjacent cmpf l (a + (b - a) / 4 * 1) 0).2).2).2

/-- choosePivotCmpFunc: static pivot below 8 elements (swaps = 0, hence an
increasing hint), median-of-three up to 49, Tukey ninther from 50. -/
def choosePivot {α : Type} [Inhabited α] (cmpf : α → α → Int) (l : List α) (a b : Nat) :
    Nat × SortHint :=
  if 8 ≤ b - a then
    if 50 ≤ b - a then pivotHintOf (ninther cmpf l a b)
    else
      pivotHintOf (medianIdx cmpf l (a + (b - a) / 4 * 1) (a + (b - a) / 4 * 2)
        (a + (b - a) / 4 * 3) 0)
  else (a + (b - a) / 4 * 2, SortHint.increasing)

/-- The xorshift64 generator used by breakPatternsCmpFunc. -/
def xorshiftNext (x : Nat) : Nat :=
  let x1 := (x ^^^ (x <<< 13)) % 2 ^ 64
  let x2 := x1 ^^^ (x1 >>> 7)
  (x2 ^^^ (x2 <<< 17)) % 2 ^ 64

/-- math/bits.Len, via the recursion Len n = Len (n/2) + 1 for n ≥ 1, driven
by fuel: starting from fuel = n, the argument at least halves each step while
the fuel drops by one, so fuel can reach 0 only with n = 0, where the result
is 0 either way — the fueled function agrees exactly with bits.Len. -/
def bitsLenF : Nat → Nat → Nat
  | 0, _ => 0
  | f + 1, n => if n = 0 then 0 else bitsLenF f (n / 2) + 1

def bitsLen (n : Nat) : Nat := bitsLenF n n

def nextPowerOfTwo (length : Nat) : Nat := 1 <<< bitsLen length

/-- The random offset into [0, length) used by breakPatternsCmpFunc:
`other := int(uint(random.Next()) % modulus); if other >= length { other -= length }`. -/
def bpOff (len r : Nat) : Nat :=
  if r % nextPowerOfTwo len ≥ len then r % nextPowerOfTwo len - len
  else r % nextPowerOfTwo len

/-- breakPatternsCmpFunc: swap the three elements around the middle
(`idx := a + (length/4)*2 - 1`, positions idx-1, idx, idx+1) with
pseudo-randomly chosen ones; the xorshift generator is seeded with the
length and Next() is called once per swap. -/
def breakPatterns {α : Type} [Inhabited α] (l : List α) (a b : Nat) : List α :=
  if 8 ≤ b - a then
    swapE
      (swapE
        (swapE l (a + (b - a) / 4 * 2 - 1 - 1)
          (a + bpOff (b - a) (xorshiftNext (b - a))))
        (a + (b - a) / 4 * 2 - 1)
        (a + bpOff (b - a) (xorshiftNext (xorshiftNext (b - a)))))
      (a + (b - a) / 4 * 2 - 1 + 1)
      (a + bpOff (b - a) (xorshiftNext (xorshiftNext (xorshiftNext (b - a)))))
  else l

theorem bitsLenF_zero (f : Nat) : bitsLenF f 0 = 0 := by
  cases f <;> simp [bitsLenF]

theorem bitsLenF_pow_le (f : Nat) : ∀ n, n ≤ f → 1 ≤ n → 2 ^ bitsLenF f n ≤ 2 * n := by
  induction f with
  | zero => intro n h1 h2; omega
  | succ f ih =>
    intro n h1 h2
    simp only [bitsLenF]
    rw [if_neg (by omega)]
    by_cases h3 : n = 1
    · subst h3
      norm_num [bitsLenF_zero]
    · have h4 : n / 2 ≤ f := by omega
      have h5 : 1 ≤ n / 2 := by omega
      have h6 := ih (n / 2) h4 h5
      rw [pow_succ]
      omega

theorem bpOff_lt (len r : Nat) (h : 1 ≤ len) : bpOff len r < len := by
  have hmod : r % nextPowerOfTwo len < nextPowerOfTwo len := by
    apply Nat.mod_lt
    simp [nextPowerOfTwo, Nat.shiftLeft_eq]
  have hnp : nextPowerOfTwo len ≤ 2 * len := by
    rw [nextPowerOfTwo, bitsLen, Nat.shiftLeft_eq, one_mul]
    exact bitsLenF_pow_le len len (le_refl _) h
  unfold bpOff
  split <;> omega

/-- partitionCmpFunc's left scan (`for i <= j && cmp(data[i], data[a]) < 0`,
with j1 = j+1), driven by fuel starting at (and always equal to) j1 - i:
fuel 0 means i ≥ j1, where the loop guard fails either way. -/
def scanIF {α : Type} [Inhabited α] (cmpf : α → α → Int) (l : List α) (a : Nat) :
    Nat → Nat → Nat → Nat
  | 0, i, _ => i
  | fuel + 1, i, j1 =>
    if i < j1 ∧ cmpf (getE l i) (getE l a) < 0 then scanIF cmpf l a fuel (i + 1) j1 else i

def scanI {α : Type} [Inhabited α] (cmpf : α → α → Int) (l : List α) (a i j1 : Nat) : Nat :=
  scanIF cmpf l a (j1 - i) i j1

/-- partitionCmpFunc's right scan (`for i <= j && !(cmp(data[j], data[a]) < 0)`);
structural recursion on j1 = j+1, the 0 case being the failed `i <= j` guard. -/
def scanJ {α : Type} [Inhabited α] (cmpf : α → α → Int) (l : List α) (a i : Nat) :
    Nat → Nat
  | 0 => 0
  | j1 + 1 =>
    if i < j1 + 1 ∧ ¬ cmpf (getE l j1) (getE l a) < 0 then scanJ cmpf l a i j1
    else j1 + 1

theorem scanIF_ge {α : Type} [Inhabited α] (cmpf : α → α → Int) (l : List α) (a : Nat) :
    ∀ (fuel i j1 : Nat), i ≤ scanIF cmpf l a fuel i j1 := by
  intro fuel
  induction fuel with
  | zero => intro i j1; simp [scanIF]
  | succ f ih =>
    intro i j1
    rw [scanIF]
    split
    · have := ih (i + 1) j1
      omega
    · omega

theorem scanIF_le {α : Type} [Inhabited α] (cmpf : α → α → Int) (l : List α) (a : Nat) :
    ∀ (fuel i j1 : Nat), i ≤ j1 → scanIF cmpf l a fuel i j1 ≤ j1 := by
  intro fuel
  induction fuel with
  | zero => intro i j1 h; simpa [scanIF] using h
  | succ f ih =>
    intro i j1 h
    rw [scanIF]
    split
    · rename_i hc
      exact ih (i + 1) j1 (by omega)
    · omega

theorem scanI_ge {α : Type} [Inhabited α] (cmpf : α → α → Int) (l : List α) (a i j1 : Nat) :
    i ≤ scanI cmpf l a i j1 :=
  scanIF_ge cmpf l a (j1 - i) i j1

theorem scanI_le {α : Type} [Inhabited α] (cmpf : α → α → Int) (l : List α) (a i j1 : Nat)
    (h : i ≤ j1) : scanI cmpf l a i j1 ≤ j1 :=
  scanIF_le cmpf l a (j1 - i) i j1 h

theorem scanJ_le {α : Type} [Inhabited α] (cmpf : α → α → Int) (l : List α) (a i : Nat) :
    ∀ j1 : Nat, scanJ cmpf l a i j1 ≤ j1 := by
  intro j1
  induction j1 with
  | zero => simp [scanJ]
  | succ j ih =>
    rw [scanJ]
    split
    · omega
    · omega

theorem scanJ_ge {α : Type} [Inhabited α] (cmpf : α → α → Int) (l : List α) (a i : Nat) :
    ∀ j1 : Nat, min i j1 ≤ scanJ cmpf l a i j1 := by
  intro j1
  induction j1 with
  | zero => simp [scanJ]
  | succ j ih =>
    rw [scanJ]
    split
    · omega
    · omega


/-- partitionCmpFunc's main loop, with the two scans inlined: scan i right,
scan j left, stop when they cross, otherwise swap and continue inside the
crossed-over range.  The fuel starts at j1 - i, which dominates the
remaining iteration count (each round shrinks j1 - i by at least two); at
fuel 0 we have i ≥ j1, the scans return i2 = i and j2 = j1 ≤ i2, so the
loop exits with (l, j2) in both presentations, which is what the fuel-0
case returns. -/
def partLoopF {α : Type} [Inhabited α] (cmpf : α → α → Int) :
    Nat → List α → Nat → Nat → Nat → List α × Nat
  | 0, l, a, i, j1 => (l, scanJ cmpf l a (scanI cmpf l a i j1) j1)
  | fuel + 1, l, a, i, j1 =>
    if scanI cmpf l a i j1 < scanJ cmpf l a (scanI cmpf l a i j1) j1 then
      partLoopF cmpf fuel
        (swapE l (scanI cmpf l a i j1) (scanJ cmpf l a (scanI cmpf l a i j1) j1 - 1)) a
        (scanI cmpf l a i j1 + 1) (scanJ cmpf l a (scanI cmpf l a i j1) j1 - 1)
    else (l, scanJ cmpf l a (scanI cmpf l a i j1) j1)

def partLoop {α : Type} [Inhabited α] (cmpf : α → α → Int) (l : List α) (a i j1 : Nat) :
    List α × Nat :=
  partLoopF cmpf (j1 - i) l a i j1

theorem partLoopF_ge {α : Type} [Inhabited α] (cmpf : α → α → Int) (a : Nat) :
    ∀ (fuel : Nat) (l : List α) (i j1 : Nat), a + 1 ≤ i → a + 1 ≤ j1 →
      a + 1 ≤ (partLoopF cmpf fuel l a i j1).2 := by
  intro fuel
  induction fuel with
  | zero =>
    intro l i j1 hi hj
    have h1 := scanI_ge cmpf l a i j1
    have h2 := scanJ_ge cmpf l a (scanI cmpf l a i j1) j1
    simp only [partLoopF]
    omega
  | succ f ih =>
    intro l i j1 hi hj
    rw [partLoopF]
    split
    · rename_i h
      have h1 := scanI_ge cmpf l a i j1
      exact ih _ _ _ (by omega) (by omega)
    · have h1 := scanI_ge cmpf l a i j1
      have h2 := scanJ_ge cmpf l a (scanI cmpf l a i j1) j1
      simp only
      omega

theorem partLoopF_le {α : Type} [Inhabited α] (cmpf : α → α → Int) (a : Nat) :
    ∀ (fuel : Nat) (l : List α) (i j1 : Nat), (partLoopF cmpf fuel l a i j1).2 ≤ j1 := by
  intro fuel
  induction fuel with
  | zero =>
    intro l i j1
    have h2 := scanJ_le cmpf l a (scanI cmpf l a i j1) j1
    simp only [partLoopF]
    omega
  | succ f ih =>
    intro l i j1
    rw [partLoopF]
    split
    · rename_i h
      have h2 := scanJ_le cmpf l a (scanI cmpf l a i j1) j1
      have h3 := ih (swapE l (scanI cmpf l a i j1)
        (scanJ cmpf l a (scanI cmpf l a i j1) j1 - 1)) (scanI cmpf l a i j1 + 1)
        (scanJ cmpf l a (scanI cmpf l a i j1) j1 - 1)
      omega
    · have h2 := scanJ_le cmpf l a (scanI cmpf l a i j1) j1
      simp only
      omega

theorem partLoop_ge {α : Type} [Inhabited α] (cmpf : α → α → Int) (l : List α)
    (a i j1 : Nat) (hi : a + 1 ≤ i) (hj : a + 1 ≤ j1) :
    a + 1 ≤ (partLoop cmpf l a i j1).2 :=
  partLoopF_ge cmpf a (j1 - i) l i j1 hi hj

theorem partLoop_le {α : Type} [Inhabited α] (cmpf : α → α → Int) (l : List α)
    (a i j1 : Nat) : (partLoop cmpf l a i j1).2 ≤ j1 :=
  partLoopF_le cmpf a (j1 - i) l i j1

/-- partitionCmpFunc: Hoare-style partition of data[a:b] around data[pivot];
swap the pivot to the front, run the two optimistic scans, either return
immediately (range already partitioned) or swap once and enter the main
loop; finally swap the pivot into place.  Second component is the pivot's
final position, third whether the range was already partitioned. -/
def partitionGo {α : Type} [Inhabited α] (cmpf : α → α → Int) (l : List α)
    (a b pivot : Nat) : List α × Nat × Bool :=
  if scanJ cmpf (swapE l a pivot) a (scanI cmpf (swapE l a pivot) a (a + 1) b) b ≤
      scanI cmpf (swapE l a pivot) a (a + 1) b then
    (swapE (swapE l a pivot)
       (scanJ cmpf (swapE l a pivot) a (scanI cmpf (swapE l a pivot) a (a + 1) b) b - 1) a,
     (scanJ cmpf (swapE l a pivot) a (scanI cmpf (swapE l a pivot) a (a + 1) b) b - 1,
      true))
  else
    (swapE
       (partLoop cmpf
         (swapE (swapE l a pivot) (scanI cmpf (swapE l a pivot) a (a + 1) b)
           (scanJ cmpf (swapE l a pivot) a (scanI cmpf (swapE l a pivot) a (a + 1) b) b -
             1))
         a (scanI cmpf (swapE l a pivot) a (a + 1) b + 1)
         (scanJ cmpf (swapE l a pivot) a (scanI cmpf (swapE l a pivot) a (a + 1) b) b -
           1)).1
       ((partLoop cmpf
         (swapE (swapE l a pivot) (scanI cmpf (swapE l a pivot) a (a + 1) b)
           (scanJ cmpf (swapE l a pivot) a (scanI cmpf (swapE l a pivot) a (a + 1) b) b -
             1))
         a (scanI cmpf (swapE l a pivot) a (a + 1) b + 1)
         (scanJ cmpf (swapE l a pivot) a (scanI cmpf (swapE l a pivot) a (a + 1) b) b -
           1)).2 - 1) a,
     ((partLoop cmpf
         (swapE (swapE l a pivot) (scanI cmpf (swapE l a pivot) a (a + 1) b)
           (scanJ cmpf (swapE l a pivot) a (scanI cmpf (swapE l a pivot) a (a + 1) b) b -
             1))
         a (scanI cmpf (swapE l a pivot) a (a + 1) b + 1)
         (scanJ cmpf (swapE l a pivot) a (scanI cmpf (swapE l a pivot) a (a + 1) b) b -
           1)).2 - 1, false))

theorem partitionGo_bounds {α : Type} [Inhabited α] (cmpf : α → α → Int) (l : List α)
    (a b pivot : Nat) (h : a + 1 ≤ b) :
    a ≤ (partitionGo cmpf l a b pivot).2.1 ∧ (partitionGo cmpf l a b pivot).2.1 ≤ b - 1 := by
  unfold partitionGo
  have h1 := scanI_ge cmpf (swapE l a pivot) a (a + 1) b
  have h2 := scanI_le cmpf (swapE l a pivot) a (a + 1) b h
  have h3 := scanJ_ge cmpf (swapE l a pivot) a
    (scanI cmpf (swapE l a pivot) a (a + 1) b) b
  have h4 := scanJ_le cmpf (swapE l a pivot) a
    (scanI cmpf (swapE l a pivot) a (a + 1) b) b
  split
  · rename_i hge
    constructor <;> simp <;> omega
  · rename_i hlt
    have h5 := partLoop_ge cmpf
      (swapE (swapE l a pivot) (scanI cmpf (swapE l a pivot) a (a + 1) b)
        (scanJ cmpf (swapE l a pivot) a (scanI cmpf (swapE l a pivot) a (a + 1) b) b - 1))
      a (scanI cmpf (swapE l a pivot) a (a + 1) b + 1)
      (scanJ cmpf (swapE l a pivot) a (scanI cmpf (swapE l a pivot) a (a + 1) b) b - 1)
      (by omega) (by omega)
    have h6 := partLoop_le cmpf
      (swapE (swapE l a pivot) (scanI cmpf (swapE l a pivot) a (a + 1) b)
        (scanJ cmpf (swapE l a pivot) a (scanI cmpf (swapE l a pivot) a (a + 1) b) b - 1))
      a (scanI cmpf (swapE l a pivot) a (a + 1) b + 1)
      (scanJ cmpf (swapE l a pivot) a (scanI cmpf (swapE l a pivot) a (a + 1) b) b - 1)
    constructor <;> simp <;> omega

/-- partitionEqualCmpFunc's left scan (`for i <= j && !(cmp(data[a],
data[i]) < 0)`), fuel starting at (and equal to) j1 - i. -/
def scanEqIF {α : Type} [Inhabited α] (cmpf : α → α → Int) (l : List α) (a : Nat) :
    Nat → Nat → Nat → Nat
  | 0, i, _ => i
  | fuel + 1, i, j1 =>
    if i < j1 ∧ ¬ cmpf (getE l a) (getE l i) < 0 then scanEqIF cmpf l a fuel (i + 1) j1
    else i

def scanEqI {α : Type} [Inhabited α] (cmpf : α → α → Int) (l : List α) (a i j1 : Nat) :
    Nat :=
  scanEqIF cmpf l a (j1 - i) i j1

/-- partitionEqualCmpFunc's right scan (`for i <= j && cmp(data[a], data[j]) < 0`);
structural recursion on j1 = j+1. -/
def scanEqJ {α : Type} [Inhabited α] (cmpf : α → α → Int) (l : List α) (a i : Nat) :
    Nat → Nat
  | 0 => 0
  | j1 + 1 =>
    if i < j1 + 1 ∧ cmpf (getE l a) (getE l j1) < 0 then scanEqJ cmpf l a i j1
    else j1 + 1

theorem scanEqIF_ge {α : Type} [Inhabited α] (cmpf : α → α → Int) (l : List α) (a : Nat) :
    ∀ (fuel i j1 : Nat), i ≤ scanEqIF cmpf l a fuel i j1 := by
  intro fuel
  induction fuel with
  | zero => intro i j1; simp [scanEqIF]
  | succ f ih =>
    intro i j1
    rw [scanEqIF]
    split
    · have := ih (i + 1) j1
      omega
    · omega

theorem scanEqI_ge {α : Type} [Inhabited α] (cmpf : α → α → Int) (l : List α)
    (a i j1 : Nat) : i ≤ scanEqI cmpf l a i j1 :=
  scanEqIF_ge cmpf l a (j1 - i) i j1

theorem scanEqJ_le {α : Type} [Inhabited α] (cmpf : α → α → Int) (l : List α) (a i : Nat) :
    ∀ j1 : Nat, scanEqJ cmpf l a i j1 ≤ j1 := by
  intro j1
  induction j1 with
  | zero => simp [scanEqJ]
  | succ j ih =>
    rw [scanEqJ]
    split
    · omega
    · omega

/-- partitionEqualCmpFunc's loop; the second component is the returned i.
The fuel starts at j1 - i and dominates the iteration count; at fuel 0 we
have i ≥ j1, the scans are no-ops and the loop exits with (l, i) in both
presentations. -/
def peqLoopF {α : Type} [Inhabited α] (cmpf : α → α → Int) :
    Nat → List α → Nat → Nat → Nat → List α × Nat
  | 0, l, a, i, j1 => (l, scanEqI cmpf l a i j1)
  | fuel + 1, l, a, i, j1 =>
    if scanEqI cmpf l a i j1 < scanEqJ cmpf l a (scanEqI cmpf l a i j1) j1 then
      peqLoopF cmpf fuel
        (swapE l (scanEqI cmpf l a i j1) (scanEqJ cmpf l a (scanEqI cmpf l a i j1) j1 - 1))
        a (scanEqI cmpf l a i j1 + 1) (scanEqJ cmpf l a (scanEqI cmpf l a i j1) j1 - 1)
    else (l, scanEqI cmpf l a i j1)

def peqLoop {α : Type} [Inhabited α] (cmpf : α → α → Int) (l : List α) (a i j1 : Nat) :
    List α × Nat :=
  peqLoopF cmpf (j1 - i) l a i j1

theorem peqLoopF_ge {α : Type} [Inhabited α] (cmpf : α → α → Int) (a : Nat) :
    ∀ (fuel : Nat) (l : List α) (i j1 : Nat), a + 1 ≤ i →
      a + 1 ≤ (peqLoopF cmpf fuel l a i j1).2 := by
  intro fuel
  induction fuel with
  | zero =>
    intro l i j1 hi
    have h1 := scanEqI_ge cmpf l a i j1
    simp only [peqLoopF]
    omega
  | succ f ih =>
    intro l i j1 hi
    rw [peqLoopF]
    split
    · have h1 := scanEqI_ge cmpf l a i j1
      exact ih _ _ _ (by omega)
    · have h1 := scanEqI_ge cmpf l a i j1
      simp only
      omega

theorem peqLoop_ge {α : Type} [Inhabited α] (cmpf : α → α → Int) (l : List α)
    (a i j1 : Nat) (hi : a + 1 ≤ i) : a + 1 ≤ (peqLoop cmpf l a i j1).2 :=
  peqLoopF_ge cmpf a (j1 - i) l i j1 hi

/-- partitionEqualCmpFunc: move elements equal to data[pivot] to the front;
returns the first index after them. -/
def partitionEqualGo {α : Type} [Inhabited α] (cmpf : α → α → Int) (l : List α)
    (a b pivot : Nat) : List α × Nat :=
  peqLoop cmpf (swapE l a pivot) a (a + 1) b

theorem partitionEqualGo_ge {α : Type} [Inhabited α] (cmpf : α → α → Int) (l : List α)
    (a b pivot : Nat) : a + 1 ≤ (partitionEqualGo cmpf l a b pivot).2 :=
  peqLoop_ge cmpf (swapE l a pivot) a (a + 1) b (by omega)

/-- partialInsertionSortCmpFunc's forward scan for the first out-of-order
adjacent pair, fuel starting at (and equal to) b - i. -/
def nearScanF {α : Type} [Inhabited α] (cmpf : α → α → Int) (l : List α) (b : Nat) :
    Nat → Nat → Nat
  | 0, i => i
  | fuel + 1, i =>
    if i < b ∧ ¬ cmpf (getE l i) (getE l (i - 1)) < 0 then nearScanF cmpf l b fuel (i + 1)
    else i

def nearScan {α : Type} [Inhabited α] (cmpf : α → α → Int) (l : List α) (i b : Nat) :
    Nat :=
  nearScanF cmpf l b (b - i) i

/-- partialInsertionSortCmpFunc: shift the smaller element left
(`for j := i - 1; j >= 1; j--`); structural recursion on j, the j = 0 case
being the failed `j >= 1` guard. -/
def shiftEleL {α : Type} [Inhabited α] (cmpf : α → α → Int) : List α → Nat → List α
  | l, 0 => l
  | l, j + 1 =>
    if cmpf (getE l (j + 1)) (getE l j) < 0 then shiftEleL cmpf (swapE l (j + 1) j) j
    else l

/-- partialInsertionSortCmpFunc: shift the greater element right
(`for j := i + 1; j < b; j++`), fuel starting at (and equal to) b - j. -/
def shiftEleRF {α : Type} [Inhabited α] (cmpf : α → α → Int) (b : Nat) :
    Nat → List α → Nat → List α
  | 0, l, _ => l
  | fuel + 1, l, j =>
    if j < b ∧ cmpf (getE l j) (getE l (j - 1)) < 0 then
      shiftEleRF cmpf b fuel (swapE l j (j - 1)) (j + 1)
    else l

def shiftEleR {α : Type} [Inhabited α] (cmpf : α → α → Int) (l : List α) (j b : Nat) :
    List α :=
  shiftEleRF cmpf b (b - j) l j

/-- partialInsertionSortCmpFunc's outer loop, at most maxSteps = 5 rounds;
returns the data and whether the range ended up sorted.  Below 50 elements
(shortestShifting) nothing is ever moved.  On a shift round the
out-of-order pair is swapped, then the smaller element is shifted further
left (only when `i - a >= 2`) and the greater one right (only when
`b - i >= 2`), exactly as in Go. -/
def nearLoop {α : Type} [Inhabited α] (cmpf : α → α → Int) (l : List α) (a b i : Nat) :
    Nat → List α × Bool
  | 0 => (l, false)
  | steps + 1 =>
    if nearScan cmpf l i b = b then (l, true)
    else if b - a < 50 then (l, false)
    else
      nearLoop cmpf
        (if 2 ≤ b - nearScan cmpf l i b then
          shiftEleR cmpf
            (if 2 ≤ nearScan cmpf l i b - a then
              shiftEleL cmpf
                (swapE l (nearScan cmpf l i b) (nearScan cmpf l i b - 1))
                (nearScan cmpf l i b - 1)
            else swapE l (nearScan cmpf l i b) (nearScan cmpf l i b - 1))
            (nearScan cmpf l i b + 1) b
        else
          (if 2 ≤ nearScan cmpf l i b - a then
            shiftEleL cmpf
              (swapE l (nearScan cmpf l i b) (nearScan cmpf l i b - 1))
              (nearScan cmpf l i b - 1)
          else swapE l (nearScan cmpf l i b) (nearScan cmpf l i b - 1)))
        a b (nearScan cmpf l i b) steps

/-- partialInsertionSortCmpFunc. -/
def nearSortCheck {α : Type} [Inhabited α] (cmpf : α → α → Int) (l : List α) (a b : Nat) :
    List α × Bool :=
  nearLoop cmpf l a b (a + 1) 5

/-! The body of one pdqsortCmpFunc loop iteration, split into named stages
so the recursion and its proofs stay readable.  Stage order follows Go:
breakPatterns (when the last partitioning was imbalanced), choosePivot,
reverseRange on a decreasing hint, partialInsertionSort when the range
looks sorted, then partitionEqual or partition. -/

/-- Data after the optional breakPatterns step. -/
def pdqLB {α : Type} [Inhabited α] (l : List α) (a b : Nat) (wB : Bool) : List α :=
  if !wB then breakPatterns l a b else l

/-- choosePivot on the breakPatterns-adjusted data. -/
def pdqPV {α : Type} [Inhabited α] (cmpf : α → α → Int) (l : List α) (a b : Nat)
    (wB : Bool) : Nat × SortHint :=
  choosePivot cmpf (pdqLB l a b wB) a b

/-- Data after the optional reversal of a decreasing range. -/
def pdqLR {α : Type} [Inhabited α] (cmpf : α → α → Int) (l : List α) (a b : Nat)
    (wB : Bool) : List α :=
  if (pdqPV cmpf l a b wB).2 = SortHint.decreasing then reverseRange (pdqLB l a b wB) a b
  else pdqLB l a b wB

/-- Pivot index, mirrored when the range was reversed. -/
def pdqPivot {α : Type} [Inhabited α] (cmpf : α → α → Int) (l : List α) (a b : Nat)
    (wB : Bool) : Nat :=
  if (pdqPV cmpf l a b wB).2 = SortHint.decreasing then
    (b - 1) - ((pdqPV cmpf l a b wB).1 - a)
  else (pdqPV cmpf l a b wB).1

def pdqHint {α : Type} [Inhabited α] (cmpf : α → α → Int) (l : List α) (a b : Nat)
    (wB : Bool) : SortHint :=
  if (pdqPV cmpf l a b wB).2 = SortHint.decreasing then SortHint.increasing
  else (pdqPV cmpf l a b wB).2

/-- The optional partialInsertionSort attempt on a likely-sorted range. -/
def pdqNS {α : Type} [Inhabited α] (cmpf : α → α → Int) (l : List α) (a b : Nat)
    (wB wP : Bool) : List α × Bool :=
  if wB && wP && decide (pdqHint cmpf l a b wB = SortHint.increasing) then
    nearSortCheck cmpf (pdqLR cmpf l a b wB) a b
  else (pdqLR cmpf l a b wB, false)

def pdqData {α : Type} [Inhabited α] (cmpf : α → α → Int) (l : List α) (a b : Nat)
    (wB wP : Bool) : List α :=
  (pdqNS cmpf l a b wB wP).1

/-- True when partialInsertionSort finished the job and the iteration
returns early. -/
def pdqEarly {α : Type} [Inhabited α] (cmpf : α → α → Int) (l : List α) (a b : Nat)
    (wB wP : Bool) : Bool :=
  (pdqNS cmpf l a b wB wP).2

/-- The `cmp(data[a-1], data[pivot]) >= 0` test selecting the
partitionEqual fast path for many duplicates (only when a > 0). -/
def pdqManyDup {α : Type} [Inhabited α] (cmpf : α → α → Int) (l : List α) (a b : Nat)
    (wB wP : Bool) : Prop :=
  0 < a ∧ ¬ cmpf (getE (pdqData cmpf l a b wB wP) (a - 1))
    (getE (pdqData cmpf l a b wB wP) (pdqPivot cmpf l a b wB)) < 0

instance {α : Type} [Inhabited α] (cmpf : α → α → Int) (l : List α) (a b : Nat)
    (wB wP : Bool) : Decidable (pdqManyDup cmpf l a b wB wP) :=
  inferInstanceAs (Decidable (0 < a ∧
    ¬ cmpf (getE (pdqData cmpf l a b wB wP) (a - 1))
      (getE (pdqData cmpf l a b wB wP) (pdqPivot cmpf l a b wB)) < 0))

def pdqPE {α : Type} [Inhabited α] (cmpf : α → α → Int) (l : List α) (a b : Nat)
    (wB wP : Bool) : List α × Nat :=
  partitionEqualGo cmpf (pdqData cmpf l a b wB wP) a b (pdqPivot cmpf l a b wB)

def pdqPart {α : Type} [Inhabited α] (cmpf : α → α → Int) (l : List α) (a b : Nat)
    (wB wP : Bool) : List α × Nat × Bool :=
  partitionGo cmpf (pdqData cmpf l a b wB wP) a b (pdqPivot cmpf l a b wB)

/-- `wasBalanced = min(leftLen, rightLen) >= length/8` for the next round. -/
def pdqWasB {α : Type} [Inhabited α] (cmpf : α → α → Int) (l : List α) (a b : Nat)
    (wB wP : Bool) : Bool :=
  decide ((b - a) / 8 ≤
    min ((pdqPart cmpf l a b wB wP).2.1 - a) (b - (pdqPart cmpf l a b wB wP).2.1))

/-- pdqsortCmpFunc (Go 1.21-1.24 src/slices/zsortanyfunc.go).  The Go
for-loop with mutable a, b, limit, wasBalanced, wasPartitioned is the tail
recursion below; `continue` after partitionEqual re-enters with a moved to
mid; after a partition the shorter side is sorted by the inner recursive
call and the loop continues on the longer side. -/
def pdqsort {α : Type} [Inhabited α] (cmpf : α → α → Int) (l : List α) (a b : Nat)
    (limit : Int) (wasBalanced wasPartitioned : Bool) : List α :=
  if hlen : b - a ≤ 12 then insertionSort cmpf l a b
  else if limit = 0 then heapSort cmpf l a b
  else if pdqEarly cmpf l a b wasBalanced wasPartitioned then
    pdqData cmpf l a b wasBalanced wasPartitioned
  else if pdqManyDup cmpf l a b wasBalanced wasPartitioned then
    pdqsort cmpf (pdqPE cmpf l a b wasBalanced wasPartitioned).1
      (pdqPE cmpf l a b wasBalanced wasPartitioned).2 b
      (if !wasBalanced then limit - 1 else limit) wasBalanced wasPartitioned
  else if (pdqPart cmpf l a b wasBalanced wasPartitioned).2.1 - a <
      b - (pdqPart cmpf l a b wasBalanced wasPartitioned).2.1 then
    -- recurse into the shorter (left) side: a fresh call starts with
    -- wasBalanced = wasPartitioned = true; the loop then continues on
    -- [mid+1, b) with the updated flags
    pdqsort cmpf
      (pdqsort cmpf (pdqPart cmpf l a b wasBalanced wasPartitioned).1 a
        (pdqPart cmpf l a b wasBalanced wasPartitioned).2.1
        ((if !wasBalanced then limit - 1 else limit) - 1) true true)
      ((pdqPart cmpf l a b wasBalanced wasPartitioned).2.1 + 1) b
      ((if !wasBalanced then limit - 1 else limit) - 1)
      (pdqWasB cmpf l a b wasBalanced wasPartitioned)
      (pdqPart cmpf l a b wasBalanced wasPartitioned).2.2
  else
    pdqsort cmpf
      (pdqsort cmpf (pdqPart cmpf l a b wasBalanced wasPartitioned).1
        ((pdqPart cmpf l a b wasBalanced wasPartitioned).2.1 + 1) b
        ((if !wasBalanced then limit - 1 else limit) - 1) true true)
      a (pdqPart cmpf l a b wasBalanced wasPartitioned).2.1
      ((if !wasBalanced then limit - 1 else limit) - 1)
      (pdqWasB cmpf l a b wasBalanced wasPartitioned)
      (pdqPart cmpf l a b wasBalanced wasPartitioned).2.2
termination_by b - a
decreasing_by
  · have := partitionEqualGo_ge cmpf (pdqData cmpf l a b wasBalanced wasPartitioned) a b
      (pdqPivot cmpf l a b wasBalanced)
    unfold pdqPE
    omega
  · have := partitionGo_bounds cmpf (pdqData cmpf l a b wasBalanced wasPartitioned) a b
      (pdqPivot cmpf l a b wasBalanced) (by omega)
    unfold pdqPart
    omega
  · have := partitionGo_bounds cmpf (pdqData cmpf l a b wasBalanced wasPartitioned) a b
      (pdqPivot cmpf l a b wasBalanced) (by omega)
    unfold pdqPart
    omega
  · have := partitionGo_bounds cmpf (pdqData cmpf l a b wasBalanced wasPartitioned) a b
      (pdqPivot cmpf l a b wasBalanced) (by omega)
    unfold pdqPart
    omega
  · have := partitionGo_bounds cmpf (pdqData cmpf l a b wasBalanced wasPartitioned) a b
      (pdqPivot cmpf l a b wasBalanced) (by omega)
    unfold pdqPart
    omega

/-- slices.SortFunc: `pdqsortCmpFunc(x, 0, n, bits.Len(uint(n)), cmp)`,
wasBalanced = wasPartitioned = true initially. -/
def sortFuncGo {α : Type} [Inhabited α] (cmpf : α → α → Int) (l : List α) : List α :=
  pdqsort cmpf l 0 l.length (bitsLen l.length) true true

/-! ### TitleRanker: titleFromPhrases (title.go:116-141) -/

/-- Go cmp.Compare.  On ℚ there are no NaNs, so the float64 NaN clauses
never fire. -/
def cmpCompare (x y : ℚ) : Int := if x < y then -1 else if y < x then 1 else 0

/-- The comparator of title.go:121-123: descending font size. -/
def cmpPhrase (a b : phrase) : Int := cmpCompare b.fontSize a.fontSize

/-- The phrase slice as slices.SortFunc leaves it (title.go:121-123).
slices.SortFunc sorts the caller's slice in place; this function is the
caller-visible content of `phrases` after the call. -/
def sortPhrases (ps : List phrase) : List phrase := sortFuncGo cmpPhrase ps

/-- title.go:197-202 `(p *phrase) String`. -/
def phraseString (p : phrase) : List Nat :=
  (renderJoined p.b).take (min 80 (renderJoined p.b).length)

/-- title.go:125-135: the candidate selection of titleFromPhrases — sort by
descending font size, take the top phrase's rendering, and if it is
shorter than 4 bytes fall back to the second-ranked phrase when there is
one, and to the empty string otherwise. -/
def rankCandidate (ps : List phrase) : List Nat :=
  if (sortPhrases ps).length = 0 then []
  else
    if (phraseString (getE (sortPhrases ps) 0)).length < 4 then
      if 1 < (sortPhrases ps).length then phraseString (getE (sortPhrases ps) 1)
      else []
    else phraseString (getE (sortPhrases ps) 0)

/-- title.go:116-141 titleFromPhrases: the ranked candidate if it passes
dictCheck, the empty string otherwise.  (For an empty phrase list the
source returns "" before calling dictCheck; dictCheck on "" is false, so
composing the two stages gives the same result.) -/
def titleFromPhrases (words : List Nat → Bool) (stem : List Nat → List Nat)
    (ps : List phrase) : List Nat :=
  if dictCheck words stem (rankCandidate ps) then rankCandidate ps else []

/-! ### phrasesOfDoc and title (title.go:48-113): the fault boundary

The external pdf reader (rsc.io/pdf) is abstracted as its observable
outcome: either reader construction fails, or page traversal aborts with
a panic value (whose message is an arbitrary string, List Char), or it
yields the text runs of the first non-null page (none when every page is
null).  phrasesOfDoc's deferred recover turns a panic into an error
value: a fixed message when the panic text contains "malformed hex
string", a generic prefixed message otherwise. -/

inductive ReaderResult where
  | initErr (msg : List Char)
  | panicked (msg : List Char)
  | pages (runs : Option (List TextRun))

/-- strings.Index(s, sub) >= 0, i.e. sub occurs in s: prefix check at each
position.  (For the ASCII needle used here, Go's byte-level search and
this character-level search agree on every valid-UTF-8 haystack, and Go
strings are compared byte-wise.) -/
def leadsWith {β : Type} [DecidableEq β] : List β → List β → Bool
  | [], _ => true
  | _ :: _, [] => false
  | a :: as, b :: bs => a = b && leadsWith as bs

def hasSub {β : Type} [DecidableEq β] (needle hay : List β) : Bool :=
  leadsWith needle hay ||
    (match hay with
     | [] => false
     | _ :: t => hasSub needle t)

def malformedNeedle : List Char := "malformed hex string".data

def panicPrefix : List Char := "reader paniced: ".data

def panickedMalformedMsg : List Char := "reader paniced: malformed hex string".data

/-- The message prefix of title.go:82 built without a source-literal
apostrophe: "can" ++ CHR(39) ++ "t init reader: ". -/
def initErrPrefix : List Char := "can".data ++ [Char.ofNat 39] ++ "t init reader: ".data

/-- title.go:62-113 phrasesOfDoc over the abstracted reader outcome.  A
nil pdf.Reader error wraps into "can't init reader: %w"; a recovered
panic maps to the distinguished malformed-hex-string error or the
generic "reader paniced: %s" one; zero pages or zero runs give (nil, nil)
which is modelled as ok []. -/
def phrasesOfDoc (isG : Nat → Bool) : ReaderResult → Except (List Char) (List phrase)
  | ReaderResult.initErr msg => Except.error (initErrPrefix ++ msg)
  | ReaderResult.panicked msg =>
    if hasSub malformedNeedle msg then Except.error panickedMalformedMsg
    else Except.error (panicPrefix ++ msg)
  | ReaderResult.pages none => Except.ok []
  | ReaderResult.pages (some runs) => Except.ok (phrasesOfRuns isG runs)

/-- title.go:48-57 `title`: phrasesOfDoc then titleFromPhrases, errors
propagated. -/
def title (isG : Nat → Bool) (words : List Nat → Bool) (stem : List Nat → List Nat)
    (r : ReaderResult) : Except (List Char) (List Nat) :=
  match phrasesOfDoc isG r with
  | Except.ok ps => Except.ok (titleFromPhrases words stem ps)
  | Except.error e => Except.error e

/-! ### Concrete instances and spec-side refinement definitions used by
the claim theorems -/

/-- A phrase with only identity (font) and font size filled in, as used by
the ranking claims: titleFromPhrases reads nothing but fontSize and b. -/
def mkPhrase (id : Nat) (fs : ℚ) : phrase :=
  { font := [id], fontSize := fs, spacing := 0, prevx := 0, prevy := 0, length := 0,
    b := [] }

/-- The 13-phrase document of claim C2's counterexample: font sizes
0,0,2,1,1,1,0,0,3,0,0,0,1 in document order, phrase i carrying font name
[i] as its identity. -/
def c2Input : List phrase :=
  [mkPhrase 0 0, mkPhrase 1 0, mkPhrase 2 2, mkPhrase 3 1, mkPhrase 4 1, mkPhrase 5 1,
   mkPhrase 6 0, mkPhrase 7 0, mkPhrase 8 3, mkPhrase 9 0, mkPhrase 10 0, mkPhrase 11 0,
   mkPhrase 12 1]

/-- Claim C1's instance: a lone phrase whose accumulated text is the
2-byte string "Hi" (shorter than 4 bytes after rendering). -/
def c1Phrase : phrase :=
  { font := [1], fontSize := 10, spacing := 0, prevx := 0, prevy := 0, length := 2,
    b := [72, 105] }

/-- Claim C3's instance: a phrase whose accumulated text is 79 ASCII
letters `a` followed by the 2-byte UTF-8 encoding C3 A9 of U+00E9 — 81
bytes, 80 code points, with the 80-byte boundary inside the final
character. -/
def c3Phrase : phrase :=
  { font := [1], fontSize := 10, spacing := 0, prevx := 0, prevy := 0, length := 81,
    b := List.replicate 79 97 ++ [0xC3, 0xA9] }

/-- Go utf8.Valid as seen through DecodeRune: a byte string is valid
UTF-8 exactly when repeated decoding never hits an invalid sequence, i.e.
never yields (RuneError, size 1) — a genuinely encoded U+FFFD decodes
with size 3 and stays valid.  Fueled like the other decode loops: the
invariant `s.length ≤ fuel` holds throughout, so fuel 0 is reached only
with s = [], where the answer is true either way. -/
def utf8ValidF : Nat → List Nat → Bool
  | 0, _ => true
  | _, [] => true
  | fuel + 1, b0 :: rest =>
    if (decodeRune (b0 :: rest)).1 = runeError ∧ (decodeRune (b0 :: rest)).2 = 1 then false
    else utf8ValidF fuel ((b0 :: rest).drop (decodeRune (b0 :: rest)).2)

def utf8Valid (s : List Nat) : Bool := utf8ValidF s.length s

/-- No two adjacent space bytes: the byte-level statement that all
whitespace runs have been collapsed to single spaces. -/
def noAdj32 : List Nat → Bool
  | [] => true
  | [_] => true
  | a :: b :: t => !(decide (a = 32) && decide (b = 32)) && noAdj32 (b :: t)

/-- SPEC-SIDE refinement definition, translated from the words of claim
C4 ("token = maximal alphabetic substring of 3–30 characters"), NOT from
the source: the maximal ASCII-alphabetic runs of s whose length lies in
[3, 30].  To be compared against `tokensGo`, the source's regexp
semantics, which chops a run longer than 30 into 30-byte pieces instead
of discarding it. -/
def specTokensF : Nat → List Nat → List (List Nat)
  | 0, _ => []
  | _, [] => []
  | fuel + 1, b :: rest =>
    if isAlphaByte b then
      if 3 ≤ ((b :: rest).takeWhile isAlphaByte).length ∧
          ((b :: rest).takeWhile isAlphaByte).length ≤ 30 then
        (b :: rest).takeWhile isAlphaByte ::
          specTokensF fuel ((b :: rest).dropWhile isAlphaByte)
      else specTokensF fuel ((b :: rest).dropWhile isAlphaByte)
    else specTokensF fuel rest

def specTokens (s : List Nat) : List (List Nat) := specTokensF s.length s

/-- SPEC-SIDE refinement of the acceptance predicate of claim C4, using
the claim's own token notion (specTokens) with the same hit counting and
inclusive 0.20 threshold as the source. -/
def specHits (words : List Nat → Bool) (stem : List Nat → List Nat) (s : List Nat) : Nat :=
  ((specTokens s).filter
    (fun w => words (toLowerGo w) || words (toLowerGo (stem w)))).length

def specAccept (words : List Nat → Bool) (stem : List Nat → List Nat) (s : List Nat) :
    Bool :=
  decide (0 < (specTokens s).length ∧
    (specHits words stem s : ℚ) / ((specTokens s).length : ℚ) ≥ 1/5)

/-- Claim C4's instance: a 31-letter alphabetic run, and a dictionary
holding exactly the 30-letter word the regexp chops off its front. -/
def c4Buf : List Nat := List.replicate 31 97

def c4Words (w : List Nat) : Bool := decide (w = List.replicate 30 97)

/-! ### Groundwork: swapE as a list surgery, permutation and length -/

theorem getE_eq {α : Type} [Inhabited α] (l : List α) (i : Nat) (h : i < l.length) :
    getE l i = l[i] := by
  simp [getE, List.getD_eq_getElem?_getD, List.getElem?_eq_getElem h]

theorem length_swapE {α : Type} [Inhabited α] (l : List α) (i j : Nat) :
    (swapE l i j).length = l.length := by simp [swapE]

theorem list_split_two {α : Type} [Inhabited α] (l : List α) (i j : Nat) (hij : i < j)
    (hj : j < l.length) :
    l = l.take i ++
      (getE l i :: ((l.drop (i + 1)).take (j - i - 1) ++ (getE l j :: l.drop (j + 1)))) := by
  have hi : i < l.length := lt_trans hij hj
  rw [getE_eq l i hi, getE_eq l j hj]
  conv_lhs => rw [← List.take_append_drop i l]
  congr 1
  rw [List.drop_eq_getElem_cons hi]
  congr 1
  conv_lhs => rw [← List.take_append_drop (j - i - 1) (l.drop (i + 1))]
  congr 1
  rw [List.drop_drop]
  have : i + 1 + (j - i - 1) = j := by omega
  rw [this, List.drop_eq_getElem_cons hj]

theorem swapE_split {α : Type} [Inhabited α] (l : List α) (i j : Nat) (hij : i < j)
    (hj : j < l.length) :
    swapE l i j = l.take i ++
      (getE l j :: ((l.drop (i + 1)).take (j - i - 1) ++ (getE l i :: l.drop (j + 1)))) := by
  have hi : i < l.length := lt_trans hij hj
  have hM : j < (l.set i (getE l j)).length := by simpa using hj
  unfold swapE
  rw [List.set_eq_take_cons_drop (getE l i) hM,
    List.set_eq_take_cons_drop (getE l j) hi,
    List.take_append_eq_append_take, List.drop_append_eq_append_drop,
    List.take_take, List.length_take]
  have h1 : min j i = i := by omega
  have h2 : min i l.length = i := by omega
  rw [h1, h2]
  have h3 : j - i = (j - i - 1) + 1 := by omega
  rw [h3, List.take_succ_cons]
  have h4 : (l.take i).drop (j + 1) = [] := by
    apply List.drop_eq_nil_of_le
    simp
    omega
  rw [h4]
  have h5 : j + 1 - i = (j - i - 1) + 1 + 1 := by omega
  rw [h5, List.drop_succ_cons]
  have h6 : (l.drop (i + 1)).drop (j - i - 1 + 1) = l.drop (j + 1) := by
    rw [List.drop_drop]
    congr 1
    omega
  rw [h6]
  simp

theorem set_getE_self {α : Type} [Inhabited α] (l : List α) (i : Nat) :
    l.set i (getE l i) = l := by
  by_cases h : i < l.length
  · rw [getE_eq l i h, List.set_eq_take_cons_drop _ h, ← List.drop_eq_getElem_cons h,
      List.take_append_drop]
  · rw [List.set_eq_of_length_le (by omega)]

theorem swapE_comm {α : Type} [Inhabited α] (l : List α) (i j : Nat) :
    swapE l i j = swapE l j i := by
  by_cases h : i = j
  · rw [h]
  · unfold swapE
    rw [List.set_comm _ _ _ h]

theorem swapE_perm {α : Type} [Inhabited α] (l : List α) (i j : Nat)
    (hi : i < l.length) (hj : j < l.length) : (swapE l i j).Perm l := by
  rcases lt_trichotomy i j with h | h | h
  · rw [swapE_split l i j h hj]
    conv_rhs => rw [list_split_two l i j h hj]
    apply List.Perm.append_left
    have s1 := (List.perm_middle.cons (getE l j) :
      (getE l j :: ((l.drop (i + 1)).take (j - i - 1) ++ (getE l i :: l.drop (j + 1)))).Perm
        (getE l j :: (getE l i :: ((l.drop (i + 1)).take (j - i - 1) ++ l.drop (j + 1)))))
    have s2 := List.Perm.swap (getE l i) (getE l j)
      ((l.drop (i + 1)).take (j - i - 1) ++ l.drop (j + 1))
    have s3 := (List.perm_middle.symm.cons (getE l i) :
      (getE l i :: (getE l j :: ((l.drop (i + 1)).take (j - i - 1) ++ l.drop (j + 1)))).Perm
        (getE l i :: ((l.drop (i + 1)).take (j - i - 1) ++ (getE l j :: l.drop (j + 1)))))
    exact (s1.trans s2).trans s3
  · subst h
    unfold swapE
    rw [List.set_set, set_getE_self]
  · rw [swapE_comm]
    rw [swapE_split l j i h hi]
    conv_rhs => rw [list_split_two l j i h hi]
    apply List.Perm.append_left
    have s1 := (List.perm_middle.cons (getE l i) :
      (getE l i :: ((l.drop (j + 1)).take (i - j - 1) ++ (getE l j :: l.drop (i + 1)))).Perm
        (getE l i :: (getE l j :: ((l.drop (j + 1)).take (i - j - 1) ++ l.drop (i + 1)))))
    have s2 := List.Perm.swap (getE l j) (getE l i)
      ((l.drop (j + 1)).take (i - j - 1) ++ l.drop (i + 1))
    have s3 := (List.perm_middle.symm.cons (getE l j) :
      (getE l j :: (getE l i :: ((l.drop (j + 1)).take (i - j - 1) ++ l.drop (i + 1)))).Perm
        (getE l j :: ((l.drop (j + 1)).take (i - j - 1) ++ (getE l i :: l.drop (i + 1)))))
    exact (s1.trans s2).trans s3

/-- Swapping two adjacent elements of which at most one satisfies q leaves
List.filter q unchanged: the key fact behind stability of the ≤ 12-element
insertion-sort path. -/
theorem swapE_adj_filter {α : Type} [Inhabited α] (q : α → Bool) (l : List α) (k : Nat)
    (hk : k + 1 < l.length) (hq : ¬(q (getE l k) = true ∧ q (getE l (k + 1)) = true)) :
    (swapE l k (k + 1)).filter q = l.filter q := by
  rw [swapE_split l k (k + 1) (by omega) hk]
  conv_rhs => rw [list_split_two l k (k + 1) (by omega) hk]
  have hseg : (l.drop (k + 1)).take (k + 1 - k - 1) = [] := by simp
  rw [hseg]
  simp only [List.filter_append, List.filter_cons, List.nil_append]
  by_cases h1 : q (getE l k) <;> by_cases h2 : q (getE l (k + 1)) <;> simp_all

theorem nearScanF_le {α : Type} [Inhabited α] (cmpf : α → α → Int) (l : List α)
    (b : Nat) : ∀ (fuel i : Nat), i ≤ b → nearScanF cmpf l b fuel i ≤ b := by
  intro fuel
  induction fuel with
  | zero => intro i h; simpa [nearScanF] using h
  | succ f ih =>
    intro i h
    rw [nearScanF]
    split
    · exact ih (i + 1) (by omega)
    · omega

theorem nearScanF_ge {α : Type} [Inhabited α] (cmpf : α → α → Int) (l : List α)
    (b : Nat) : ∀ (fuel i : Nat), i ≤ nearScanF cmpf l b fuel i := by
  intro fuel
  induction fuel with
  | zero => intro i; simp [nearScanF]
  | succ f ih =>
    intro i
    rw [nearScanF]
    split
    · have := ih (i + 1)
      omega
    · omega

theorem nearScan_le {α : Type} [Inhabited α] (cmpf : α → α → Int) (l : List α)
    (i b : Nat) (h : i ≤ b) : nearScan cmpf l i b ≤ b :=
  nearScanF_le cmpf l b (b - i) i h

theorem nearScan_ge {α : Type} [Inhabited α] (cmpf : α → α → Int) (l : List α)
    (i b : Nat) : i ≤ nearScan cmpf l i b :=
  nearScanF_ge cmpf l b (b - i) i

theorem order2_mem {α : Type} [Inhabited α] (cmpf : α → α → Int) (l : List α)
    (a b s : Nat) :
    ((order2 cmpf l a b s).1 = a ∨ (order2 cmpf l a b s).1 = b) ∧
      ((order2 cmpf l a b s).2.1 = a ∨ (order2 cmpf l a b s).2.1 = b) := by
  unfold order2
  split <;> simp

theorem medianIdx_mem {α : Type} [Inhabited α] (cmpf : α → α → Int) (l : List α)
    (a b c s : Nat) :
    (medianIdx cmpf l a b c s).1 = a ∨ (medianIdx cmpf l a b c s).1 = b ∨
      (medianIdx cmpf l a b c s).1 = c := by
  have o1 := order2_mem cmpf l a b s
  have o2 := order2_mem cmpf l (order2 cmpf l a b s).2.1 c (order2 cmpf l a b s).2.2
  have o3 := order2_mem cmpf l (order2 cmpf l a b s).1
    (order2 cmpf l (order2 cmpf l a b s).2.1 c (order2 cmpf l a b s).2.2).1
    (order2 cmpf l (order2 cmpf l a b s).2.1 c (order2 cmpf l a b s).2.2).2.2
  unfold medianIdx
  omega

theorem medianAdjacent_mem {α : Type} [Inhabited α] (cmpf : α → α → Int) (l : List α)
    (a s : Nat) :
    (medianAdjacent cmpf l a s).1 = a - 1 ∨ (medianAdjacent cmpf l a s).1 = a ∨
      (medianAdjacent cmpf l a s).1 = a + 1 :=
  medianIdx_mem cmpf l (a - 1) a (a + 1) s

theorem pivotHintOf_fst (p : Nat × Nat) : (pivotHintOf p).1 = p.1 := by
  unfold pivotHintOf
  split_ifs <;> rfl

theorem ninther_mem {α : Type} [Inhabited α] (cmpf : α → α → Int) (l : List α)
    (a b : Nat) :
    a + (b - a) / 4 * 1 - 1 ≤ (ninther cmpf l a b).1 ∧
      (ninther cmpf l a b).1 ≤ a + (b - a) / 4 * 3 + 1 := by
  have m1 := medianAdjacent_mem cmpf l (a + (b - a) / 4 * 1) 0
  have m2 := medianAdjacent_mem cmpf l (a + (b - a) / 4 * 2)
    (medianAdjacent cmpf l (a + (b - a) / 4 * 1) 0).2
  have m3 := medianAdjacent_mem cmpf l (a + (b - a) / 4 * 3)
    (medianAdjacent cmpf l (a + (b - a) / 4 * 2)
      (medianAdjacent cmpf l (a + (b - a) / 4 * 1) 0).2).2
  have mm := medianIdx_mem cmpf l
    (medianAdjacent cmpf l (a + (b - a) / 4 * 1) 0).1
    (medianAdjacent cmpf l (a + (b - a) / 4 * 2)
      (medianAdjacent cmpf l (a + (b - a) / 4 * 1) 0).2).1
    (medianAdjacent cmpf l (a + (b - a) / 4 * 3)
      (medianAdjacent cmpf l (a + (b - a) / 4 * 2)
        (medianAdjacent cmpf l (a + (b - a) / 4 * 1) 0).2).2).1
    (medianAdjacent cmpf l (a + (b - a) / 4 * 3)
      (medianAdjacent cmpf l (a + (b - a) / 4 * 2)
        (medianAdjacent cmpf l (a + (b - a) / 4 * 1) 0).2).2).2
  unfold ninther
  omega

theorem choosePivot_mem {α : Type} [Inhabited α] (cmpf : α → α → Int) (l : List α)
    (a b : Nat) (h : 13 ≤ b - a) :
    a ≤ (choosePivot cmpf l a b).1 ∧ (choosePivot cmpf l a b).1 < b := by
  unfold choosePivot
  split_ifs with h8 h50
  · rw [pivotHintOf_fst]
    have := ninther_mem cmpf l a b
    omega
  · rw [pivotHintOf_fst]
    have mm := medianIdx_mem cmpf l (a + (b - a) / 4 * 1) (a + (b - a) / 4 * 2)
      (a + (b - a) / 4 * 3) 0
    omega
  · omega

/-! ### Every data movement of the sort is a swap, so each routine
permutes the list.  The bounds hypotheses mirror the index invariants Go
maintains implicitly (indices stay inside the slice). -/

theorem perm_insertInner {α : Type} [Inhabited α] (cmpf : α → α → Int) :
    ∀ (j : Nat) (l : List α) (a : Nat), j < l.length → (insertInner cmpf l j a).Perm l := by
  intro j
  induction j with
  | zero => intro l a _; exact List.Perm.refl l
  | succ j ih =>
    intro l a hj
    rw [insertInner]
    split
    · have hlen := length_swapE l (j + 1) j
      exact (ih _ a (by omega)).trans (swapE_perm l (j + 1) j hj (by omega))
    · exact List.Perm.refl l

theorem perm_insertLoopF {α : Type} [Inhabited α] (cmpf : α → α → Int) :
    ∀ (fuel : Nat) (l : List α) (a i b : Nat), b ≤ l.length →
      (insertLoopF cmpf fuel l a i b).Perm l := by
  intro fuel
  induction fuel with
  | zero => intro l a i b _; exact List.Perm.refl l
  | succ f ih =>
    intro l a i b hb
    rw [insertLoopF]
    split
    · rename_i h
      have hp := perm_insertInner cmpf i l a (by omega)
      exact (ih _ a (i + 1) b (by rw [hp.length_eq]; omega)).trans hp
    · exact List.Perm.refl l

theorem perm_insertionSort {α : Type} [Inhabited α] (cmpf : α → α → Int) (l : List α)
    (a b : Nat) (hb : b ≤ l.length) : (insertionSort cmpf l a b).Perm l :=
  perm_insertLoopF cmpf (b - (a + 1)) l a (a + 1) b hb

theorem heapChild_lt {α : Type} [Inhabited α] (cmpf : α → α → Int) (l : List α)
    (root hi first : Nat) (h : 2 * root + 1 < hi) : heapChild cmpf l root hi first < hi := by
  unfold heapChild
  split <;> omega

theorem perm_siftDownF {α : Type} [Inhabited α] (cmpf : α → α → Int) (hi first : Nat) :
    ∀ (fuel : Nat) (l : List α) (root : Nat), first + hi ≤ l.length →
      (siftDownF cmpf fuel l root hi first).Perm l := by
  intro fuel
  induction fuel with
  | zero => intro l root _; exact List.Perm.refl l
  | succ f ih =>
    intro l root hb
    rw [siftDownF]
    split
    · rename_i h
      split
      · rename_i hcmp
        have hc := heapChild_lt cmpf l root hi first h
        have hlen := length_swapE l (first + root) (first + heapChild cmpf l root hi first)
        exact (ih _ _ (by omega)).trans
          (swapE_perm l (first + root) (first + heapChild cmpf l root hi first)
            (by omega) (by omega))
      · exact List.Perm.refl l
    · exact List.Perm.refl l

theorem perm_siftDown {α : Type} [Inhabited α] (cmpf : α → α → Int) (l : List α)
    (root hi first : Nat) (hb : first + hi ≤ l.length) :
    (siftDown cmpf l root hi first).Perm l :=
  perm_siftDownF cmpf hi first (hi - root) l root hb

theorem perm_heapify {α : Type} [Inhabited α] (cmpf : α → α → Int) (hi first : Nat)
    (n : Nat) : ∀ (l : List α), first + hi ≤ l.length → (heapify cmpf l hi first n).Perm l := by
  induction n with
  | zero => intro l _; exact List.Perm.refl l
  | succ i ih =>
    intro l hb
    have hp := perm_siftDown cmpf l i hi first hb
    exact (ih _ (by rw [hp.length_eq]; omega)).trans hp

theorem perm_heapPop {α : Type} [Inhabited α] (cmpf : α → α → Int) (first : Nat)
    (n : Nat) : ∀ (l : List α), first + n ≤ l.length → (heapPop cmpf l first n).Perm l := by
  induction n with
  | zero => intro l _; exact List.Perm.refl l
  | succ i ih =>
    intro l hb
    have hs := swapE_perm l first (first + i) (by omega) (by omega)
    have hp := perm_siftDown cmpf (swapE l first (first + i)) 0 i first
      (by rw [hs.length_eq]; omega)
    refine (ih _ ?_).trans (hp.trans hs)
    rw [hp.length_eq, hs.length_eq]
    omega

theorem perm_heapSort {α : Type} [Inhabited α] (cmpf : α → α → Int) (l : List α)
    (a b : Nat) (ha : a ≤ b) (hb : b ≤ l.length) : (heapSort cmpf l a b).Perm l := by
  unfold heapSort
  have h1 := perm_heapify cmpf (b - a) a ((b - a - 1) / 2 + 1) l (by omega)
  have h2 := perm_heapPop cmpf a (b - a) (heapify cmpf l (b - a) a ((b - a - 1) / 2 + 1))
    (by rw [h1.length_eq]; omega)
  exact h2.trans h1

theorem perm_revRange {α : Type} [Inhabited α] :
    ∀ (j : Nat) (l : List α) (i : Nat), j < l.length → (revRange l i j).Perm l := by
  intro j
  induction j with
  | zero => intro l i _; exact List.Perm.refl l
  | succ j ih =>
    intro l i hj
    rw [revRange]
    split
    · have hlen := length_swapE l i (j + 1)
      exact (ih _ (i + 1) (by omega)).trans (swapE_perm l i (j + 1) (by omega) hj)
    · exact List.Perm.refl l

theorem perm_reverseRange {α : Type} [Inhabited α] (l : List α) (a b : Nat)
    (hb : b ≤ l.length) : (reverseRange l a b).Perm l := by
  unfold reverseRange
  by_cases h0 : b = 0
  · subst h0
    exact List.Perm.refl l
  · exact perm_revRange (b - 1) l a (by omega)

theorem perm_breakPatterns {α : Type} [Inhabited α] (l : List α) (a b : Nat)
    (hb : b ≤ l.length) : (breakPatterns l a b).Perm l := by
  unfold breakPatterns
  split
  · rename_i h8
    have ho1 := bpOff_lt (b - a) (xorshiftNext (b - a)) (by omega)
    have ho2 := bpOff_lt (b - a) (xorshiftNext (xorshiftNext (b - a))) (by omega)
    have ho3 := bpOff_lt (b - a) (xorshiftNext (xorshiftNext (xorshiftNext (b - a))))
      (by omega)
    have p1 := swapE_perm l (a + (b - a) / 4 * 2 - 1 - 1)
      (a + bpOff (b - a) (xorshiftNext (b - a))) (by omega) (by omega)
    have p2 := swapE_perm
      (swapE l (a + (b - a) / 4 * 2 - 1 - 1) (a + bpOff (b - a) (xorshiftNext (b - a))))
      (a + (b - a) / 4 * 2 - 1)
      (a + bpOff (b - a) (xorshiftNext (xorshiftNext (b - a))))
      (by rw [length_swapE]; omega) (by rw [length_swapE]; omega)
    have p3 := swapE_perm
      (swapE
        (swapE l (a + (b - a) / 4 * 2 - 1 - 1) (a + bpOff (b - a) (xorshiftNext (b - a))))
        (a + (b - a) / 4 * 2 - 1)
        (a + bpOff (b - a) (xorshiftNext (xorshiftNext (b - a)))))
      (a + (b - a) / 4 * 2 - 1 + 1)
      (a + bpOff (b - a) (xorshiftNext (xorshiftNext (xorshiftNext (b - a)))))
      (by rw [length_swapE, length_swapE]; omega)
      (by rw [length_swapE, length_swapE]; omega)
    exact (p3.trans p2).trans p1
  · exact List.Perm.refl l

theorem perm_partLoopF {α : Type} [Inhabited α] (cmpf : α → α → Int) (a : Nat) :
    ∀ (fuel : Nat) (l : List α) (i j1 : Nat), j1 ≤ l.length →
      (partLoopF cmpf fuel l a i j1).1.Perm l := by
  intro fuel
  induction fuel with
  | zero => intro l i j1 _; exact List.Perm.refl l
  | succ f ih =>
    intro l i j1 hj
    rw [partLoopF]
    split
    · rename_i h
      have h2 := scanJ_le cmpf l a (scanI cmpf l a i j1) j1
      have hs := swapE_perm l (scanI cmpf l a i j1)
        (scanJ cmpf l a (scanI cmpf l a i j1) j1 - 1) (by omega) (by omega)
      exact (ih _ _ _ (by rw [hs.length_eq]; omega)).trans hs
    · exact List.Perm.refl l

theorem perm_partLoop {α : Type} [Inhabited α] (cmpf : α → α → Int) (l : List α)
    (a i j1 : Nat) (hj : j1 ≤ l.length) : (partLoop cmpf l a i j1).1.Perm l :=
  perm_partLoopF cmpf a (j1 - i) l i j1 hj

theorem perm_partitionGo {α : Type} [Inhabited α] (cmpf : α → α → Int) (l : List α)
    (a b pivot : Nat) (h : a + 1 ≤ b) (hb : b ≤ l.length) (hp : pivot < l.length) :
    (partitionGo cmpf l a b pivot).1.Perm l := by
  have h1 := scanI_ge cmpf (swapE l a pivot) a (a + 1) b
  have h2 := scanI_le cmpf (swapE l a pivot) a (a + 1) b h
  have h3 := scanJ_ge cmpf (swapE l a pivot) a (scanI cmpf (swapE l a pivot) a (a + 1) b) b
  have h4 := scanJ_le cmpf (swapE l a pivot) a (scanI cmpf (swapE l a pivot) a (a + 1) b) b
  have p0 := swapE_perm l a pivot (by omega) hp
  unfold partitionGo
  split
  · rename_i hge
    have p1 := swapE_perm (swapE l a pivot)
      (scanJ cmpf (swapE l a pivot) a (scanI cmpf (swapE l a pivot) a (a + 1) b) b - 1) a
      (by rw [length_swapE]; omega) (by rw [length_swapE]; omega)
    exact p1.trans p0
  · rename_i hlt
    have p1 := swapE_perm (swapE l a pivot) (scanI cmpf (swapE l a pivot) a (a + 1) b)
      (scanJ cmpf (swapE l a pivot) a (scanI cmpf (swapE l a pivot) a (a + 1) b) b - 1)
      (by rw [length_swapE]; omega) (by rw [length_swapE]; omega)
    have p2 := perm_partLoop cmpf
      (swapE (swapE l a pivot) (scanI cmpf (swapE l a pivot) a (a + 1) b)
        (scanJ cmpf (swapE l a pivot) a (scanI cmpf (swapE l a pivot) a (a + 1) b) b - 1))
      a (scanI cmpf (swapE l a pivot) a (a + 1) b + 1)
      (scanJ cmpf (swapE l a pivot) a (scanI cmpf (swapE l a pivot) a (a + 1) b) b - 1)
      (by rw [length_swapE, length_swapE]; omega)
    have h5 := partLoop_ge cmpf
      (swapE (swapE l a pivot) (scanI cmpf (swapE l a pivot) a (a + 1) b)
        (scanJ cmpf (swapE l a pivot) a (scanI cmpf (swapE l a pivot) a (a + 1) b) b - 1))
      a (scanI cmpf (swapE l a pivot) a (a + 1) b + 1)
      (scanJ cmpf (swapE l a pivot) a (scanI cmpf (swapE l a pivot) a (a + 1) b) b - 1)
      (by omega) (by omega)
    have h6 := partLoop_le cmpf
      (swapE (swapE l a pivot) (scanI cmpf (swapE l a pivot) a (a + 1) b)
        (scanJ cmpf (swapE l a pivot) a (scanI cmpf (swapE l a pivot) a (a + 1) b) b - 1))
      a (scanI cmpf (swapE l a pivot) a (a + 1) b + 1)
      (scanJ cmpf (swapE l a pivot) a (scanI cmpf (swapE l a pivot) a (a + 1) b) b - 1)
    have p3 := swapE_perm
      (partLoop cmpf
        (swapE (swapE l a pivot) (scanI cmpf (swapE l a pivot) a (a + 1) b)
          (scanJ cmpf (swapE l a pivot) a (scanI cmpf (swapE l a pivot) a (a + 1) b) b - 1))
        a (scanI cmpf (swapE l a pivot) a (a + 1) b + 1)
        (scanJ cmpf (swapE l a pivot) a (scanI cmpf (swapE l a pivot) a (a + 1) b) b -
          1)).1
      ((partLoop cmpf
        (swapE (swapE l a pivot) (scanI cmpf (swapE l a pivot) a (a + 1) b)
          (scanJ cmpf (swapE l a pivot) a (scanI cmpf (swapE l a pivot) a (a + 1) b) b - 1))
        a (scanI cmpf (swapE l a pivot) a (a + 1) b + 1)
        (scanJ cmpf (swapE l a pivot) a (scanI cmpf (swapE l a pivot) a (a + 1) b) b -
          1)).2 - 1) a
      (by rw [p2.length_eq, length_swapE, length_swapE]; omega)
      (by rw [p2.length_eq, length_swapE, length_swapE]; omega)
    exact ((p3.trans p2).trans p1).trans p0

theorem perm_peqLoopF {α : Type} [Inhabited α] (cmpf : α → α → Int) (a : Nat) :
    ∀ (fuel : Nat) (l : List α) (i j1 : Nat), j1 ≤ l.length →
      (peqLoopF cmpf fuel l a i j1).1.Perm l := by
  intro fuel
  induction fuel with
  | zero => intro l i j1 _; exact List.Perm.refl l
  | succ f ih =>
    intro l i j1 hj
    rw [peqLoopF]
    split
    · rename_i h
      have h2 := scanEqJ_le cmpf l a (scanEqI cmpf l a i j1) j1
      have hs := swapE_perm l (scanEqI cmpf l a i j1)
        (scanEqJ cmpf l a (scanEqI cmpf l a i j1) j1 - 1) (by omega) (by omega)
      exact (ih _ _ _ (by rw [hs.length_eq]; omega)).trans hs
    · exact List.Perm.refl l

theorem perm_peqLoop {α : Type} [Inhabited α] (cmpf : α → α → Int) (l : List α)
    (a i j1 : Nat) (hj : j1 ≤ l.length) : (peqLoop cmpf l a i j1).1.Perm l :=
  perm_peqLoopF cmpf a (j1 - i) l i j1 hj

theorem perm_partitionEqualGo {α : Type} [Inhabited α] (cmpf : α → α → Int) (l : List α)
    (a b pivot : Nat) (h : a + 1 ≤ b) (hb : b ≤ l.length) (hp : pivot < l.length) :
    (partitionEqualGo cmpf l a b pivot).1.Perm l := by
  unfold partitionEqualGo
  have p0 := swapE_perm l a pivot (by omega) hp
  exact (perm_peqLoop cmpf (swapE l a pivot) a (a + 1) b
    (by rw [length_swapE]; omega)).trans p0

theorem perm_shiftEleL {α : Type} [Inhabited α] (cmpf : α → α → Int) :
    ∀ (j : Nat) (l : List α), j < l.length → (shiftEleL cmpf l j).Perm l := by
  intro j
  induction j with
  | zero => intro l _; exact List.Perm.refl l
  | succ j ih =>
    intro l hj
    rw [shiftEleL]
    split
    · have hs := swapE_perm l (j + 1) j hj (by omega)
      exact (ih _ (by rw [hs.length_eq]; omega)).trans hs
    · exact List.Perm.refl l

theorem perm_shiftEleRF {α : Type} [Inhabited α] (cmpf : α → α → Int) (b : Nat) :
    ∀ (fuel : Nat) (l : List α) (j : Nat), b ≤ l.length →
      (shiftEleRF cmpf b fuel l j).Perm l := by
  intro fuel
  induction fuel with
  | zero => intro l j _; exact List.Perm.refl l
  | succ f ih =>
    intro l j hb
    rw [shiftEleRF]
    split
    · rename_i h
      have hs := swapE_perm l j (j - 1) (by omega) (by omega)
      exact (ih _ _ (by rw [hs.length_eq]; omega)).trans hs
    · exact List.Perm.refl l

theorem perm_shiftEleR {α : Type} [Inhabited α] (cmpf : α → α → Int) (l : List α)
    (j b : Nat) (hb : b ≤ l.length) : (shiftEleR cmpf l j b).Perm l :=
  perm_shiftEleRF cmpf b (b - j) l j hb

theorem perm_nearLoop {α : Type} [Inhabited α] (cmpf : α → α → Int) (a b : Nat) :
    ∀ (steps : Nat) (l : List α) (i : Nat), b ≤ l.length → i ≤ b →
      (nearLoop cmpf l a b i steps).1.Perm l := by
  intro steps
  induction steps with
  | zero => intro l i hb hi; exact List.Perm.refl l
  | succ st ih =>
    intro l i hb hi
    rw [nearLoop]
    split
    · exact List.Perm.refl l
    · split
      · exact List.Perm.refl l
      · rename_i hne h50
        have hsle := nearScan_le cmpf l i b hi
        have hlt : nearScan cmpf l i b < b := by omega
        have hswap := swapE_perm l (nearScan cmpf l i b) (nearScan cmpf l i b - 1)
          (by omega) (by omega)
        have hL : (if 2 ≤ nearScan cmpf l i b - a then
            shiftEleL cmpf (swapE l (nearScan cmpf l i b) (nearScan cmpf l i b - 1))
              (nearScan cmpf l i b - 1)
          else swapE l (nearScan cmpf l i b) (nearScan cmpf l i b - 1)).Perm l := by
          split
          · exact (perm_shiftEleL cmpf _ _ (by rw [length_swapE]; omega)).trans hswap
          · exact hswap
        have hR : (if 2 ≤ b - nearScan cmpf l i b then
            shiftEleR cmpf
              (if 2 ≤ nearScan cmpf l i b - a then
                shiftEleL cmpf (swapE l (nearScan cmpf l i b) (nearScan cmpf l i b - 1))
                  (nearScan cmpf l i b - 1)
              else swapE l (nearScan cmpf l i b) (nearScan cmpf l i b - 1))
              (nearScan cmpf l i b + 1) b
          else
            (if 2 ≤ nearScan cmpf l i b - a then
              shiftEleL cmpf (swapE l (nearScan cmpf l i b) (nearScan cmpf l i b - 1))
                (nearScan cmpf l i b - 1)
            else swapE l (nearScan cmpf l i b) (nearScan cmpf l i b - 1))).Perm l := by
          split
          · exact (perm_shiftEleR cmpf _ _ b (by rw [hL.length_eq]; omega)).trans hL
          · exact hL
        exact (ih _ _ (by rw [hR.length_eq]; omega) (by omega)).trans hR

theorem perm_nearSortCheck {α : Type} [Inhabited α] (cmpf : α → α → Int) (l : List α)
    (a b : Nat) (hb : b ≤ l.length) (hab : a + 1 ≤ b) :
    (nearSortCheck cmpf l a b).1.Perm l :=
  perm_nearLoop cmpf a b 5 l (a + 1) hb hab

theorem perm_pdqLB {α : Type} [Inhabited α] (l : List α) (a b : Nat) (wB : Bool)
    (hb : b ≤ l.length) : (pdqLB l a b wB).Perm l := by
  unfold pdqLB
  split
  · exact perm_breakPatterns l a b hb
  · exact List.Perm.refl l

theorem perm_pdqLR {α : Type} [Inhabited α] (cmpf : α → α → Int) (l : List α)
    (a b : Nat) (wB : Bool) (hb : b ≤ l.length) : (pdqLR cmpf l a b wB).Perm l := by
  unfold pdqLR
  have h0 := perm_pdqLB l a b wB hb
  split
  · exact (perm_reverseRange _ a b (by rw [h0.length_eq]; omega)).trans h0
  · exact h0

theorem perm_pdqData {α : Type} [Inhabited α] (cmpf : α → α → Int) (l : List α)
    (a b : Nat) (wB wP : Bool) (hb : b ≤ l.length) (hab : a + 1 ≤ b) :
    (pdqData cmpf l a b wB wP).Perm l := by
  unfold pdqData pdqNS
  have h0 := perm_pdqLR cmpf l a b wB hb
  split
  · exact (perm_nearSortCheck cmpf _ a b (by rw [h0.length_eq]; omega) hab).trans h0
  · exact h0

theorem pdqPivot_mem {α : Type} [Inhabited α] (cmpf : α → α → Int) (l : List α)
    (a b : Nat) (wB : Bool) (h13 : 13 ≤ b - a) :
    a ≤ pdqPivot cmpf l a b wB ∧ pdqPivot cmpf l a b wB < b := by
  have := choosePivot_mem cmpf (pdqLB l a b wB) a b h13
  unfold pdqPivot pdqPV
  split <;> omega

theorem perm_pdqPE_fst {α : Type} [Inhabited α] (cmpf : α → α → Int) (l : List α)
    (a b : Nat) (wB wP : Bool) (h13 : 13 ≤ b - a) (hb : b ≤ l.length) :
    (pdqPE cmpf l a b wB wP).1.Perm l := by
  unfold pdqPE
  have hd := perm_pdqData cmpf l a b wB wP hb (by omega)
  have hpv := pdqPivot_mem cmpf l a b wB h13
  exact (perm_partitionEqualGo cmpf (pdqData cmpf l a b wB wP) a b
    (pdqPivot cmpf l a b wB) (by omega) (by rw [hd.length_eq]; omega)
    (by rw [hd.length_eq]; omega)).trans hd

theorem perm_pdqPart_fst {α : Type} [Inhabited α] (cmpf : α → α → Int) (l : List α)
    (a b : Nat) (wB wP : Bool) (h13 : 13 ≤ b - a) (hb : b ≤ l.length) :
    (pdqPart cmpf l a b wB wP).1.Perm l := by
  unfold pdqPart
  have hd := perm_pdqData cmpf l a b wB wP hb (by omega)
  have hpv := pdqPivot_mem cmpf l a b wB h13
  exact (perm_partitionGo cmpf (pdqData cmpf l a b wB wP) a b
    (pdqPivot cmpf l a b wB) (by omega) (by rw [hd.length_eq]; omega)
    (by rw [hd.length_eq]; omega)).trans hd

theorem pdqPart_bounds {α : Type} [Inhabited α] (cmpf : α → α → Int) (l : List α)
    (a b : Nat) (wB wP : Bool) (h13 : 13 ≤ b - a) :
    a ≤ (pdqPart cmpf l a b wB wP).2.1 ∧ (pdqPart cmpf l a b wB wP).2.1 ≤ b - 1 := by
  unfold pdqPart
  exact partitionGo_bounds cmpf (pdqData cmpf l a b wB wP) a b
    (pdqPivot cmpf l a b wB) (by omega)

/-- pdqsortCmpFunc only rearranges data[a:b] by swaps: its result is a
permutation of its input. -/
theorem perm_pdqsort {α : Type} [Inhabited α] (cmpf : α → α → Int) (l : List α)
    (a b : Nat) (limit : Int) (wB wP : Bool) :
    b ≤ l.length → (pdqsort cmpf l a b limit wB wP).Perm l := by
  induction l, a, b, limit, wB, wP using pdqsort.induct cmpf with
  | case1 l a b limit wB wP hlen =>
    intro hb
    rw [pdqsort, dif_pos hlen]
    exact perm_insertionSort cmpf l a b hb
  | case2 l a b wB wP hlen =>
    intro hb
    rw [pdqsort, dif_neg hlen, if_pos rfl]
    exact perm_heapSort cmpf l a b (by omega) hb
  | case3 l a b limit wB wP hlen hlim hearly =>
    intro hb
    rw [pdqsort, dif_neg hlen, if_neg hlim, if_pos hearly]
    exact perm_pdqData cmpf l a b wB wP hb (by omega)
  | case4 l a b limit wB wP hlen hlim hearly hdup ih =>
    intro hb
    rw [pdqsort, dif_neg hlen, if_neg hlim, if_neg hearly, if_pos hdup]
    have hpe := perm_pdqPE_fst cmpf l a b wB wP (by omega) hb
    exact (ih (by rw [hpe.length_eq]; omega)).trans hpe
  | case5 l a b limit wB wP hlen hlim hearly hdup hlt ih1 ih2 =>
    intro hb
    rw [pdqsort, dif_neg hlen, if_neg hlim, if_neg hearly, if_neg hdup, if_pos hlt]
    have hpp := perm_pdqPart_fst cmpf l a b wB wP (by omega) hb
    have hin := ih1 (by rw [hpp.length_eq]; omega)
    exact (ih2 (by rw [hin.length_eq, hpp.length_eq]; omega)).trans (hin.trans hpp)
  | case6 l a b limit wB wP hlen hlim hearly hdup hlt ih1 ih2 =>
    intro hb
    rw [pdqsort, dif_neg hlen, if_neg hlim, if_neg hearly, if_neg hdup, if_neg hlt]
    have hbo := pdqPart_bounds cmpf l a b wB wP (by omega)
    have hpp := perm_pdqPart_fst cmpf l a b wB wP (by omega) hb
    have hin := ih1 (by rw [hpp.length_eq]; omega)
    exact (ih2 (by rw [hin.length_eq, hpp.length_eq]; omega)).trans (hin.trans hpp)

/-- slices.SortFunc returns (in Go: leaves in the caller's slice) a
permutation of the input. -/
theorem perm_sortFuncGo {α : Type} [Inhabited α] (cmpf : α → α → Int) (l : List α) :
    (sortFuncGo cmpf l).Perm l :=
  perm_pdqsort cmpf l 0 l.length (bitsLen l.length) true true (le_refl _)

/-! ### Stability of the ≤ 12-element path: insertionSortCmpFunc only
swaps strictly out-of-order adjacent elements, so any class of elements
on which the comparator returns 0 keeps its relative order.  This is
formalised as invariance of List.filter for any predicate q that is
comparator-homogeneous (any two q-elements compare ≥ 0). -/

theorem filter_insertInner {α : Type} [Inhabited α] (cmpf : α → α → Int) (q : α → Bool)
    (hq : ∀ x y : α, q x = true → q y = true → ¬ cmpf x y < 0) :
    ∀ (j : Nat) (l : List α) (a : Nat), j < l.length →
      (insertInner cmpf l j a).filter q = l.filter q := by
  intro j
  induction j with
  | zero => intro l a _; rfl
  | succ j ih =>
    intro l a hj
    rw [insertInner]
    split
    · rename_i h
      have hkey : ¬(q (getE l j) = true ∧ q (getE l (j + 1)) = true) := by
        rintro ⟨h1, h2⟩
        exact hq _ _ h2 h1 h.2
      have hfe := swapE_adj_filter q l j hj hkey
      rw [ih _ a (by rw [length_swapE]; omega), swapE_comm l (j + 1) j, hfe]
    · rfl

theorem filter_insertLoopF {α : Type} [Inhabited α] (cmpf : α → α → Int) (q : α → Bool)
    (hq : ∀ x y : α, q x = true → q y = true → ¬ cmpf x y < 0) :
    ∀ (fuel : Nat) (l : List α) (a i b : Nat), b ≤ l.length →
      (insertLoopF cmpf fuel l a i b).filter q = l.filter q := by
  intro fuel
  induction fuel with
  | zero => intro l a i b _; rfl
  | succ f ih =>
    intro l a i b hb
    rw [insertLoopF]
    split
    · rename_i h
      have hp := perm_insertInner cmpf i l a (by omega)
      rw [ih _ a (i + 1) b (by rw [hp.length_eq]; omega),
        filter_insertInner cmpf q hq i l a (by omega)]
    · rfl

theorem filter_insertionSort {α : Type} [Inhabited α] (cmpf : α → α → Int) (q : α → Bool)
    (hq : ∀ x y : α, q x = true → q y = true → ¬ cmpf x y < 0) (l : List α) (a b : Nat)
    (hb : b ≤ l.length) : (insertionSort cmpf l a b).filter q = l.filter q :=
  filter_insertLoopF cmpf q hq (b - (a + 1)) l a (a + 1) b hb

/-- For at most 12 elements slices.SortFunc runs insertion sort, which is
stable: the q-subsequence is untouched for any comparator-homogeneous q. -/
theorem filter_sortFuncGo_le12 {α : Type} [Inhabited α] (cmpf : α → α → Int)
    (q : α → Bool) (hq : ∀ x y : α, q x = true → q y = true → ¬ cmpf x y < 0)
    (l : List α) (hlen : l.length ≤ 12) :
    (sortFuncGo cmpf l).filter q = l.filter q := by
  rw [sortFuncGo, pdqsort, dif_pos (by omega)]
  exact filter_insertionSort cmpf q hq l 0 l.length (le_refl _)

/-! ### Evaluation lemmas for concrete runs.  pdqsort is defined by
well-founded recursion, which the kernel does not reduce, but every branch
condition of one unfolding is built from structurally recursive functions,
so a concrete run discharges the conditions by `decide` and these lemmas
turn pdqsort into kernel-evaluable insertion sorts. -/

theorem pdqsort_le12 {α : Type} [Inhabited α] (cmpf : α → α → Int) (l : List α)
    (a b : Nat) (limit : Int) (wB wP : Bool) (h : b - a ≤ 12) :
    pdqsort cmpf l a b limit wB wP = insertionSort cmpf l a b := by
  rw [pdqsort, dif_pos h]

/-- One pdqsort unfolding along the partition branch with the left side
shorter, when both sides then fall to insertion sort. -/
theorem pdqsort_part_left_small {α : Type} [Inhabited α] (cmpf : α → α → Int)
    (l : List α) (a b : Nat) (limit : Int) (wB wP : Bool)
    (h1 : ¬ b - a ≤ 12) (h2 : ¬ limit = 0)
    (h3 : ¬ pdqEarly cmpf l a b wB wP = true)
    (h4 : ¬ pdqManyDup cmpf l a b wB wP)
    (h5 : (pdqPart cmpf l a b wB wP).2.1 - a < b - (pdqPart cmpf l a b wB wP).2.1)
    (h6 : (pdqPart cmpf l a b wB wP).2.1 - a ≤ 12)
    (h7 : b - ((pdqPart cmpf l a b wB wP).2.1 + 1) ≤ 12) :
    pdqsort cmpf l a b limit wB wP =
      insertionSort cmpf
        (insertionSort cmpf (pdqPart cmpf l a b wB wP).1 a
          (pdqPart cmpf l a b wB wP).2.1)
        ((pdqPart cmpf l a b wB wP).2.1 + 1) b := by
  rw [pdqsort, dif_neg h1, if_neg h2, if_neg h3, if_neg h4, if_pos h5]
  rw [pdqsort_le12 cmpf ((pdqPart cmpf l a b wB wP).1) a
    ((pdqPart cmpf l a b wB wP).2.1) _ true true h6]
  rw [pdqsort_le12 cmpf _ ((pdqPart cmpf l a b wB wP).2.1 + 1) b _
    (pdqWasB cmpf l a b wB wP) ((pdqPart cmpf l a b wB wP).2.2) h7]

theorem sortPhrases_le12 (ps : List phrase) (h : ps.length ≤ 12) :
    sortPhrases ps = insertionSort cmpPhrase ps 0 ps.length := by
  rw [sortPhrases, sortFuncGo,
    pdqsort_le12 cmpPhrase ps 0 ps.length _ true true (by omega)]

/-! ### phrase.String as collapse-trim-cap: the joined fields have no
adjacent, leading or trailing space bytes, and the cap slices bytes -/

theorem head?_ne_of_no32 (l : List Nat) (h : 32 ∉ l) : l.head? ≠ some 32 := by
  cases l with
  | nil => simp
  | cons a t =>
    simp_all [List.head?]
    omega

theorem getLast?_ne_of_no32 (l : List Nat) (h : 32 ∉ l) : l.getLast? ≠ some 32 := by
  intro hc
  rcases List.mem_getLast?_eq_getLast (Option.mem_def.mpr hc) with ⟨hne, heq⟩
  refine h ?_
  rw [heq]
  exact List.getLast_mem hne

theorem noAdj32_of_no32 (l : List Nat) (h : 32 ∉ l) : noAdj32 l = true := by
  induction l with
  | nil => rfl
  | cons a t ih =>
    cases t with
    | nil => rfl
    | cons b t2 =>
      simp only [noAdj32, Bool.and_eq_true, Bool.not_eq_true']
      refine ⟨?_, ih (by simp_all)⟩
      simp_all
      omega

theorem noAdj32_cons (a : Nat) (l : List Nat) (ha : a = 32 → l.head? ≠ some 32)
    (hl : noAdj32 l = true) : noAdj32 (a :: l) = true := by
  cases l with
  | nil => rfl
  | cons b t =>
    by_cases h : a = 32
    · have hb : ¬ b = 32 := by simpa [List.head?] using ha h
      simp [noAdj32, hb, hl]
    · simp [noAdj32, h, hl]

theorem noAdj32_no32_append (xs ys : List Nat) (hx : 32 ∉ xs)
    (hy : noAdj32 ys = true) : noAdj32 (xs ++ ys) = true := by
  induction xs with
  | nil => simpa using hy
  | cons a t ih =>
    have ht : 32 ∉ t := fun hm => hx (List.mem_cons_of_mem a hm)
    have ha : a ≠ 32 := by
      intro hh
      exact hx (by rw [hh]; exact List.mem_cons_self _ _)
    exact noAdj32_cons a (t ++ ys) (fun h => absurd h ha) (ih ht)

theorem joinSp_ne_nil (cs : List (List Nat)) (hne : cs ≠ [])
    (h : ∀ c ∈ cs, c ≠ []) : joinSp cs ≠ [] := by
  cases cs with
  | nil => exact absurd rfl hne
  | cons c t =>
    cases t with
    | nil => simpa [joinSp] using h c (by simp)
    | cons d t2 => simp [joinSp]

/-- strings.Join with " " of nonempty space-free fields never produces two
adjacent spaces nor a leading or trailing space. -/
theorem joinSp_props (cs : List (List Nat)) (h : ∀ c ∈ cs, c ≠ [] ∧ 32 ∉ c) :
    noAdj32 (joinSp cs) = true ∧ (joinSp cs).head? ≠ some 32 ∧
      (joinSp cs).getLast? ≠ some 32 := by
  induction cs with
  | nil => exact ⟨rfl, by simp [joinSp], by simp [joinSp]⟩
  | cons c t ih =>
    cases t with
    | nil =>
      have hc := h c (by simp)
      exact ⟨noAdj32_of_no32 c hc.2, head?_ne_of_no32 c hc.2, getLast?_ne_of_no32 c hc.2⟩
    | cons d t2 =>
      have hc := h c (by simp)
      have ih2 := ih (fun x hx => h x (by simp [hx]))
      have hJne : joinSp (d :: t2) ≠ [] :=
        joinSp_ne_nil (d :: t2) (by simp) (fun x hx => (h x (by simp_all)).1)
      have hsep : noAdj32 (32 :: joinSp (d :: t2)) = true :=
        noAdj32_cons 32 (joinSp (d :: t2)) (fun _ => ih2.2.1) ih2.1
      refine ⟨?_, ?_, ?_⟩
      · show noAdj32 (c ++ 32 :: joinSp (d :: t2)) = true
        exact noAdj32_no32_append c _ hc.2 hsep
      · show (c ++ 32 :: joinSp (d :: t2)).head? ≠ some 32
        cases hcc : c with
        | nil => exact absurd hcc hc.1
        | cons a t3 =>
          have ha2 : a ≠ 32 := by
            intro hh
            refine hc.2 ?_
            rw [hcc, hh]
            exact List.mem_cons_self _ _
          simp [hcc, ha2]
      · show (c ++ 32 :: joinSp (d :: t2)).getLast? ≠ some 32
        rw [List.getLast?_append_cons]
        cases hJ : joinSp (d :: t2) with
        | nil => exact absurd hJ hJne
        | cons j t4 =>
          rw [List.getLast?_cons_cons, ← hJ]
          exact ih2.2.2

/-- Every byte the decoder consumes in one step is the lead byte or a
continuation byte ≥ 0x80. -/
theorem decodeRune_take_bytes (b0 : Nat) (rest : List Nat) :
    ∀ x ∈ (b0 :: rest).take (decodeRune (b0 :: rest)).2, x = b0 ∨ 0x80 ≤ x := by
  unfold decodeRune
  repeat' split
  all_goals intro x hx
  all_goals simp_all
  all_goals omega

/-- A step whose decoded rune is not white space consumes no 0x20 byte:
a space byte can only be consumed as the ASCII rune 32, which is white
space. -/
theorem decode_take_no32 (b0 : Nat) (rest : List Nat)
    (h : isSpaceRune (decodeRune (b0 :: rest)).1 = false) :
    32 ∉ (b0 :: rest).take (decodeRune (b0 :: rest)).2 := by
  intro hmem
  rcases decodeRune_take_bytes b0 rest 32 hmem with h1 | h1
  · subst h1
    have hsp : isSpaceRune (decodeRune (32 :: rest)).1 = true := by
      have hd : decodeRune (32 :: rest) = (32, 1) := by
        unfold decodeRune
        norm_num
      rw [hd]
      decide
    simp_all
  · omega

/-- strings.Fields returns nonempty fields holding no space byte. -/
theorem fieldsGoF_chunks :
    ∀ (fuel : Nat) (s curr : List Nat), 32 ∉ curr →
      ∀ c ∈ fieldsGoF fuel s curr, c ≠ [] ∧ 32 ∉ c := by
  intro fuel
  induction fuel with
  | zero =>
    intro s curr hcurr c hc
    simp only [fieldsGoF] at hc
    split at hc
    · simp at hc
    · rename_i hne
      simp at hc
      subst hc
      exact ⟨hne, hcurr⟩
  | succ f ih =>
    intro s curr hcurr c hc
    match s with
    | [] =>
      simp only [fieldsGoF] at hc
      split at hc
      · simp at hc
      · rename_i hne
        simp at hc
        subst hc
        exact ⟨hne, hcurr⟩
    | b0 :: rest =>
      simp only [fieldsGoF] at hc
      split at hc
      · rw [List.mem_append] at hc
        rcases hc with hc | hc
        · split at hc
          · simp at hc
          · rename_i hne
            simp at hc
            subst hc
            exact ⟨hne, hcurr⟩
        · exact ih _ [] (by simp) c hc
      · rename_i hsp
        refine ih _ _ ?_ c hc
        rw [List.mem_append]
        rintro (hm | hm)
        · exact hcurr hm
        · exact decode_take_no32 b0 rest (by simpa using hsp) hm

theorem fields_chunks (s : List Nat) : ∀ c ∈ fields s, c ≠ [] ∧ 32 ∉ c :=
  fieldsGoF_chunks s.length s [] (by simp)

theorem take_min_80 (l : List Nat) : l.take (min 80 l.length) = l.take 80 := by
  rcases le_or_lt l.length 80 with h | h
  · rw [min_eq_right h, List.take_length, List.take_of_length_le h]
  · rw [min_eq_left (by omega)]

/-! ### PhraseBuilder: what tryAppend accepts and how phrases grow -/

/-- A successful tryAppend keeps the seed font size and implies the
font-size fit that gated it. -/
theorem tryAppend_fontSize {isG : Nat → Bool} {p : phrase} {t : TextRun} {p' : phrase}
    (h : tryAppend isG p t = some p') :
    p'.fontSize = p.fontSize ∧ |t.fontSize - p.fontSize| < 4 := by
  simp only [tryAppend, Bool.and_true, decide_eq_true_eq] at h
  split at h
  · rename_i hfs
    injection h with h'
    split at h'
    · subst h'
      exact ⟨rfl, hfs⟩
    · subst h'
      exact ⟨rfl, hfs⟩
  · cases h

set_option maxHeartbeats 2000000 in
/-- The loop invariant behind claim C5: if every run already absorbed fits
the open phrase within 4 font-size units, every phrase the loop delivers
has the same property. -/
theorem phrasesLoopR_inv (isG : Nat → Bool) :
    ∀ (ts : List TextRun) (curr : phrase × List TextRun),
      (∀ t ∈ curr.2, |t.fontSize - curr.1.fontSize| < 4) →
      ∀ pr ∈ phrasesLoopR isG curr ts, ∀ t ∈ pr.2, |t.fontSize - pr.1.fontSize| < 4 := by
  intro ts
  induction ts with
  | nil =>
    intro curr hc pr hpr
    rw [phrasesLoopR, List.mem_singleton] at hpr
    subst hpr
    exact hc
  | cons t ts ih =>
    intro curr hc pr hpr
    rw [phrasesLoopR] at hpr
    cases hta : tryAppend isG curr.1 t with
    | some p =>
      simp only [hta] at hpr
      have hfs := tryAppend_fontSize hta
      refine ih (p, curr.2 ++ [t]) ?_ pr hpr
      intro t' ht'
      rw [List.mem_append] at ht'
      rcases ht' with hm | hm
      · show |t'.fontSize - p.fontSize| < 4
        rw [hfs.1]
        exact hc t' hm
      · simp at hm
        subst hm
        show |t'.fontSize - p.fontSize| < 4
        rw [hfs.1]
        exact hfs.2
    | none =>
      simp only [hta] at hpr
      rcases List.mem_cons.mp hpr with hm | hm
      · subst hm
        exact hc
      · refine ih (newPhrase isG t, [t]) ?_ pr hm
        intro t' ht'
        simp at ht'
        subst ht'
        norm_num [newPhrase]

/-! ### Sanitizer: one output rune per decode step -/

theorem printableRunesF_length (isG : Nat → Bool) :
    ∀ (fuel : Nat) (s : List Nat),
      (printableRunesF isG fuel s).length = decodeStepCountF fuel s := by
  intro fuel
  induction fuel with
  | zero => intro s; cases s <;> rfl
  | succ f ih =>
    intro s
    cases s with
    | nil => rfl
    | cons b0 rest =>
      simp [printableRunesF, decodeStepCountF, ih]
      omega

/-! ### strings.Index: a string contains itself -/

theorem leadsWith_refl {β : Type} [DecidableEq β] (l : List β) : leadsWith l l = true := by
  induction l with
  | nil => rfl
  | cons a t ih => simp [leadsWith, ih]

theorem hasSub_refl {β : Type} [DecidableEq β] (l : List β) : hasSub l l = true := by
  cases l with
  | nil => rfl
  | cons a t => simp [hasSub, leadsWith_refl]

/-- dictCheck as a ratio-free equivalence: with t tokens of which h hit
the dictionary, the Go test t > 0 && h/t >= 0.20 holds exactly when
t > 0 and t ≤ 5·h (cross-multiplying the exact rational comparison). -/
theorem dictCheck_iff (words : List Nat → Bool) (stem : List Nat → List Nat)
    (s : List Nat) :
    dictCheck words stem s = true ↔
      (0 < (tokensGo s).length ∧ (tokensGo s).length ≤ 5 * dictHits words stem s) := by
  show decide (0 < (tokensGo s).length ∧
    ((dictHits words stem s : ℚ) / ((tokensGo s).length : ℚ) ≥ 1/5)) = true ↔ _
  rw [decide_eq_true_eq]
  constructor
  · rintro ⟨h1, h2⟩
    have ht : (0:ℚ) < ((tokensGo s).length : ℚ) := by exact_mod_cast h1
    rw [ge_iff_le, div_le_div_iff₀ (by norm_num) ht, one_mul, mul_comm] at h2
    exact ⟨h1, by exact_mod_cast h2⟩
  · rintro ⟨h1, h2⟩
    have ht : (0:ℚ) < ((tokensGo s).length : ℚ) := by exact_mod_cast h1
    refine ⟨h1, ?_⟩
    rw [ge_iff_le, div_le_div_iff₀ (by norm_num) ht, one_mul, mul_comm]
    exact_mod_cast h2

/-! ### Claim theorems -/

/-- Claim C10: titleFromPhrases hands the caller's phrase slice to
slices.SortFunc, which sorts it in place: after the call the caller's
sequence is a permutation of what it was, in descending font-size order,
rather than the original document order.  `sortPhrases` is the
caller-visible slice content after title.go:121-123; the universal part
says it is always a permutation of the input, and the concrete instance
shows an input whose order the call does not preserve (permuted into
descending font size). -/
theorem c10_sort_in_place :
    (∀ ps : List phrase, (sortPhrases ps).Perm ps) ∧
      sortPhrases [mkPhrase 1 10, mkPhrase 2 24] = [mkPhrase 2 24, mkPhrase 1 10] ∧
      sortPhrases [mkPhrase 1 10, mkPhrase 2 24] ≠ [mkPhrase 1 10, mkPhrase 2 24] := by
  refine ⟨fun ps => perm_sortFuncGo cmpPhrase ps, ?_, ?_⟩
  · rw [sortPhrases_le12 _ (by decide)]
    decide
  · rw [sortPhrases_le12 _ (by decide)]
    decide

set_option maxRecDepth 40000 in
/-- Claim C2 counterexample: slices.SortFunc is not stable.  On the
13-phrase input above (13 > 12, so the pdqsort partition path runs instead
of insertion sort), phrases 3 and 12 have the same font size 1 and appear
in that document order, yet after ranking phrase 12 precedes phrase 3: two
phrases with identical font size do NOT retain their original relative
order. -/
theorem c2_counterexample :
    (mkPhrase 3 1).fontSize = (mkPhrase 12 1).fontSize ∧
      c2Input.indexOf (mkPhrase 3 1) < c2Input.indexOf (mkPhrase 12 1) ∧
      (sortPhrases c2Input).indexOf (mkPhrase 12 1) <
        (sortPhrases c2Input).indexOf (mkPhrase 3 1) := by
  have heq : sortPhrases c2Input =
      insertionSort cmpPhrase
        (insertionSort cmpPhrase (pdqPart cmpPhrase c2Input 0 c2Input.length true true).1 0
          (pdqPart cmpPhrase c2Input 0 c2Input.length true true).2.1)
        ((pdqPart cmpPhrase c2Input 0 c2Input.length true true).2.1 + 1) c2Input.length := by
    rw [sortPhrases, sortFuncGo,
      pdqsort_part_left_small cmpPhrase c2Input 0 c2Input.length (bitsLen c2Input.length)
        true true (by decide) (by decide) (by decide) (by decide) (by decide) (by decide)
        (by decide)]
  refine ⟨rfl, by decide, ?_⟩
  rw [heq]
  decide

/-- Claim C2 amended: slices.SortFunc is stable exactly on the inputs it
hands to insertion sort, i.e. for at most 12 phrases — there the phrases
of any one font size keep their original relative document order through
the ranking sort (stated as invariance of the font-size-v subsequence). -/
theorem c2_tie_stability_le12 (ps : List phrase) (h : ps.length ≤ 12) (v : ℚ) :
    (sortPhrases ps).filter (fun p => decide (p.fontSize = v)) =
      ps.filter (fun p => decide (p.fontSize = v)) := by
  rw [sortPhrases]
  refine filter_sortFuncGo_le12 cmpPhrase _ ?_ ps h
  intro x y hx hy
  have hx' : x.fontSize = v := of_decide_eq_true hx
  have hy' : y.fontSize = v := of_decide_eq_true hy
  simp [cmpPhrase, cmpCompare, hx', hy']

/-- Witness for the amended C2 theorem at a concrete 3-phrase input with a
font-size tie. -/
theorem c2_tie_stability_le12_witness :
    ([mkPhrase 1 5, mkPhrase 2 7, mkPhrase 3 5] : List phrase).length ≤ 12 ∧
      (sortPhrases [mkPhrase 1 5, mkPhrase 2 7, mkPhrase 3 5]).filter
          (fun p => decide (p.fontSize = 5)) =
        ([mkPhrase 1 5, mkPhrase 2 7, mkPhrase 3 5] : List phrase).filter
          (fun p => decide (p.fontSize = 5)) :=
  ⟨by decide, c2_tie_stability_le12 [mkPhrase 1 5, mkPhrase 2 7, mkPhrase 3 5] (by decide) 5⟩

/-- Claim C1 counterexample: when the rendered top candidate is shorter
than 4 bytes and there is no second-ranked phrase, titleFromPhrases does
NOT return the candidate unchanged — title.go:133 replaces it with the
empty string.  c1Phrase renders as the 2-byte "Hi". -/
theorem c1_counterexample :
    (phraseString c1Phrase).length < 4 ∧
      rankCandidate [c1Phrase] = [] ∧
      rankCandidate [c1Phrase] ≠ phraseString c1Phrase := by
  have h := sortPhrases_le12 [c1Phrase] (by decide)
  refine ⟨by decide, ?_, ?_⟩
  · rw [rankCandidate, h]
    decide
  · rw [rankCandidate, h]
    decide

/-- Claim C1 amended: when the rendered top candidate is shorter than 4
bytes, the result is render(phrases[1]) when a second-ranked phrase
exists and the EMPTY string otherwise (title.go:129-135) — not the
unchanged short candidate. -/
theorem c1_short_fallback (ps : List phrase)
    (hshort : (phraseString (getE (sortPhrases ps) 0)).length < 4) (hne : ps ≠ []) :
    rankCandidate ps =
      if 1 < ps.length then phraseString (getE (sortPhrases ps) 1) else [] := by
  have hlen : (sortPhrases ps).length = ps.length :=
    (perm_sortFuncGo cmpPhrase ps).length_eq
  have h0 : ¬ (sortPhrases ps).length = 0 := by
    rw [hlen]
    cases ps with
    | nil => exact absurd rfl hne
    | cons a t => simp
  rw [rankCandidate, if_neg h0, if_pos hshort, hlen]

/-- Witness for the amended C1 theorem at the concrete one-phrase input:
the hypotheses hold and the fallback result is the empty string. -/
theorem c1_short_fallback_witness :
    (phraseString (getE (sortPhrases [c1Phrase]) 0)).length < 4 ∧
      ([c1Phrase] : List phrase) ≠ [] ∧
      rankCandidate [c1Phrase] =
        (if 1 < ([c1Phrase] : List phrase).length
         then phraseString (getE (sortPhrases [c1Phrase]) 1) else []) := by
  have hs : (phraseString (getE (sortPhrases [c1Phrase]) 0)).length < 4 := by
    rw [sortPhrases_le12 [c1Phrase] (by decide)]
    decide
  exact ⟨hs, by decide, c1_short_fallback [c1Phrase] hs (by decide)⟩

/-- Claim C3 amended: phrase.String collapses whitespace and trims — the
joined field string has no adjacent, no leading and no trailing space
byte — but the 80 cap slices BYTES (`s[0:min(80, len(s))]`), not code
points, with no regard for character boundaries. -/
theorem c3_render_cap_trim (p : phrase) :
    phraseString p = (renderJoined p.b).take 80 ∧
      (phraseString p).length ≤ 80 ∧
      noAdj32 (renderJoined p.b) = true ∧
      (renderJoined p.b).head? ≠ some 32 ∧
      (renderJoined p.b).getLast? ≠ some 32 := by
  have hj := joinSp_props (fields p.b) (fields_chunks p.b)
  refine ⟨?_, ?_, hj.1, hj.2.1, hj.2.2⟩
  · rw [phraseString, take_min_80]
  · rw [phraseString, List.length_take]
    omega

set_option maxRecDepth 40000 in
/-- Claim C3 counterexample: on a phrase whose text is 79 `a` bytes
followed by the two-byte character U+00E9 — valid UTF-8, exactly 80 code
points, so the claimed code-point cap would return it unchanged —
phrase.String cuts after byte 80, splitting the final character and
producing invalid UTF-8: the truncation point is not a character
boundary. -/
theorem c3_counterexample :
    decodeStepCount c3Phrase.b = 80 ∧
      utf8Valid c3Phrase.b = true ∧
      (phraseString c3Phrase).length = 80 ∧
      utf8Valid (phraseString c3Phrase) = false := by
  refine ⟨by decide, by decide, by decide, by decide⟩

/-- Claim C4 amended: dictCheck accepts exactly when the REGEXP token list
([[:alpha:]]{3,30} leftmost-first: maximal alphabetic runs chopped into
pieces of up to 30 bytes, pieces shorter than 3 dropped) is nonempty and
the dictionary hits are at least a fifth of it, the 0.20 boundary
inclusive. -/
theorem c4_dict_threshold (words : List Nat → Bool) (stem : List Nat → List Nat)
    (s : List Nat) :
    dictCheck words stem s = true ↔
      (0 < (tokensGo s).length ∧ (tokensGo s).length ≤ 5 * dictHits words stem s) :=
  dictCheck_iff words stem s

/-- Claim C4 counterexample: the claim calls a token a MAXIMAL alphabetic
substring of 3-30 characters.  On a 31-letter run there is no such token
(the maximal run has 31), so the claimed predicate rejects; the source
regexp instead chops off a 30-letter token, and with a dictionary
containing that word dictCheck accepts. -/
theorem c4_counterexample :
    specTokens c4Buf = [] ∧
      specAccept c4Words (fun w => w) c4Buf = false ∧
      tokensGo c4Buf = [List.replicate 30 97] ∧
      dictCheck c4Words (fun w => w) c4Buf = true := by
  refine ⟨by decide, by decide, by decide, (dictCheck_iff c4Words (fun w => w) c4Buf).mpr (by decide)⟩

/-- Claim C5: a run is accepted into a phrase exactly when its font size
is within 4.0 of the phrase's seed font size — the font name plays no
part — and consequently every phrase the builder delivers has all its
absorbed runs (seed included) within 4.0 font-size units of the phrase's
font size. -/
theorem c5_fontsize_only (isG : Nat → Bool) :
    (∀ (p : phrase) (t : TextRun),
        (tryAppend isG p t).isSome = decide (|t.fontSize - p.fontSize| < 4)) ∧
    (∀ (ts : List TextRun) (pr : phrase × List TextRun),
        pr ∈ phrasesWithRuns isG ts →
        ∀ t ∈ pr.2, |t.fontSize - pr.1.fontSize| < 4) := by
  constructor
  · intro p t
    by_cases h : |t.fontSize - p.fontSize| < 4 <;> simp [tryAppend, h]
  · intro ts pr hpr t ht
    cases ts with
    | nil => simp [phrasesWithRuns] at hpr
    | cons t0 ts0 =>
      refine phrasesLoopR_inv isG ts0 (newPhrase isG t0, [t0]) ?_ pr hpr t ht
      intro t' ht'
      simp at ht'
      subst ht'
      norm_num [newPhrase]

/-- Claim C6: the spacing threshold is fixed at phrase creation as
0.16 × seed font size and never recomputed (tryAppend keeps it and the
font size); on acceptance into a nonempty phrase exactly one separator
space is inserted iff t.Y < prevY or t.X - prevX ≥ spacing, else the text
is concatenated directly, and a phrase's very first text gets no
separator. -/
theorem c6_separator (isG : Nat → Bool) :
    spacingCoefficient = 16/100 ∧
    (∀ t : TextRun, (newPhrase isG t).spacing = spacingCoefficient * t.fontSize) ∧
    (∀ (p : phrase) (t : TextRun) (p' : phrase), tryAppend isG p t = some p' →
      p'.spacing = p.spacing ∧ p'.fontSize = p.fontSize ∧
      (0 < p.length →
        p'.b = p.b ++ (if t.y < p.prevy ∨ t.x - p.prevx ≥ p.spacing
          then 32 :: printable isG t.s else printable isG t.s)) ∧
      (p.length = 0 → p'.b = p.b ++ printable isG t.s)) := by
  refine ⟨rfl, fun t => rfl, ?_⟩
  intro p t p' h
  simp only [tryAppend, Bool.and_true, decide_eq_true_eq] at h
  split at h
  · injection h with h'
    split at h'
    · rename_i hcond
      subst h'
      refine ⟨rfl, rfl, ?_, ?_⟩
      · intro hlen
        rw [if_pos hcond.2]
        simp
      · intro hlen
        exact absurd hcond.1 (by omega)
    · rename_i hcond
      subst h'
      refine ⟨rfl, rfl, ?_, fun hz => rfl⟩
      intro hlen
      have hd : ¬ (t.y < p.prevy ∨ t.x - p.prevx ≥ p.spacing) :=
        fun hdis => hcond ⟨hlen, hdis⟩
      rw [if_neg hd]
  · cases h

/-- Claim C7: the Sanitizer consumes at least one byte per decode step
even on truncated or invalid trailing sequences (so its loop terminates
on every finite input — the fueled embedding is total), and it emits
exactly one output rune per decode step: the output's character count
equals the number of decode steps. -/
theorem c7_sanitizer_steps (isG : Nat → Bool) (s : List Nat) :
    (printableRunes isG s).length = decodeStepCount s ∧
      (s ≠ [] → 1 ≤ (decodeRune s).2) := by
  refine ⟨printableRunesF_length isG s.length s, ?_⟩
  intro h
  cases s with
  | nil => exact absurd rfl h
  | cons b0 rest => exact decodeRune_size_pos b0 rest

/-- Claim C8: zero text runs build zero phrases, and the whole pipeline
returns the empty title with no error on such an input. -/
theorem c8_empty_input (isG : Nat → Bool) (words : List Nat → Bool)
    (stem : List Nat → List Nat) :
    phrasesOfRuns isG [] = [] ∧
      title isG words stem (ReaderResult.pages (some [])) = Except.ok [] := by
  have hr : rankCandidate [] = [] := by
    rw [rankCandidate, sortPhrases_le12 [] (by decide)]
    decide
  refine ⟨rfl, ?_⟩
  simp [title, phrasesOfDoc, phrasesOfRuns, titleFromPhrases, hr]

/-- Claim C9: every panic of the page traversal is caught at the
phrasesOfDoc boundary and becomes a returned error; a panic whose message
contains "malformed hex string" yields the one distinguished error value,
every other panic the generic prefixed message — and the generic message
never equals the distinguished one. -/
theorem c9_panic_boundary (isG : Nat → Bool) :
    (∀ msg : List Char,
        ∃ e, phrasesOfDoc isG (ReaderResult.panicked msg) = Except.error e) ∧
    (∀ msg : List Char, hasSub malformedNeedle msg = true →
        phrasesOfDoc isG (ReaderResult.panicked msg) =
          Except.error panickedMalformedMsg) ∧
    (∀ msg : List Char, hasSub malformedNeedle msg = false →
        phrasesOfDoc isG (ReaderResult.panicked msg) =
          Except.error (panicPrefix ++ msg)) ∧
    (∀ msg : List Char, hasSub malformedNeedle msg = false →
        panicPrefix ++ msg ≠ panickedMalformedMsg) := by
  refine ⟨?_, ?_, ?_, ?_⟩
  · intro msg
    by_cases h : hasSub malformedNeedle msg = true
    · exact ⟨panickedMalformedMsg, by simp [phrasesOfDoc, h]⟩
    · exact ⟨panicPrefix ++ msg, by simp [phrasesOfDoc, h]⟩
  · intro msg h
    simp [phrasesOfDoc, h]
  · intro msg h
    simp [phrasesOfDoc, h]
  · intro msg h heq
    have hm : panickedMalformedMsg = panicPrefix ++ malformedNeedle := by decide
    rw [hm] at heq
    have hcancel : msg = malformedNeedle := List.append_cancel_left heq
    subst hcancel
    rw [hasSub_refl] at h
    cases h
